import Mathlib

/-!
Verification development for the rules storage engine (`src/lib/rules/storage.js`).

The engine keeps an in-memory cache — a file table (logical name → record),
a running max index, and a JSON property map whose reserved `filesOrder` key
holds the display order — and persists it with a per-unit write-behind
protocol.  The synchronous cache operations are embedded below as pure
functions on a `Storage` state; the asynchronous per-unit persistence
protocol (`_writeFile` / `_writeProperties`, which share one pending/waiting
structure) is embedded separately as a small-step state machine `pstep`.
Calls that the cache operations make into the persistence layer
(`_writeProperties()`, `_writeFile(name)`) and into the filesystem
(`fs.unlink`, `fs.rename`) are recorded as emitted effects.
-/

/-- JSON values, the contents of the persisted property map. -/
inductive JVal where
  | null : JVal
  | bool : Bool → JVal
  | num : Int → JVal
  | str : String → JVal
  | arr : List JVal → JVal
  | obj : List (String × JVal) → JVal
deriving Repr

/-- An in-memory file record of the cache (`{index, name, data}`; `selected`
is an optional flag some callers set on raw records, absent on creation). -/
structure FileRecord where
  index : Int
  name : String
  data : String
  selected : Option Bool
deriving Repr, DecidableEq

/-- The shallow copy produced by `copyFileObj` (storage.js lines 31–42):
exactly the fields `index`, `name`, `data`, `selected`. -/
structure FileCopy where
  index : Int
  name : String
  data : String
  selected : Option Bool
deriving Repr, DecidableEq

/-- Side calls a cache operation makes: scheduling the properties persister
(`_writeProperties()`), scheduling one file's persister (`_writeFile(name)`),
best-effort `fs.unlink` of a slot, best-effort `fs.rename` of a slot. -/
inductive Eff where
  | wProps : Eff
  | wFile : String → Eff
  | unlink : Int → String → Eff
  | renameFs : Int → String → String → Eff
deriving Repr, DecidableEq

/-- The in-memory cache `self._cache`: `maxIndex`, the file table `files`
(association list, keys unique as in a JS object), and the property map
`properties` (association list in JS property-insertion order). -/
structure Storage where
  maxIndex : Int
  files : List (String × FileRecord)
  props : List (String × JVal)
deriving Repr

/-! ### JS array primitives used on `filesOrder` -/

/-- `Array.prototype.indexOf` (strict equality), result `-1` when absent. -/
def jsIndexOf : List String → String → Int
  | [], _ => -1
  | a :: l, x =>
    if a = x then 0
    else
      let r := jsIndexOf l x
      if r = -1 then -1 else r + 1

/-- `===` between a string and a JSON value: true exactly for an equal
string value. -/
def JVal.isStr : JVal → String → Bool
  | JVal.str s, x => s = x
  | _, _ => false

/-- `indexOf` over a raw JSON array with a string argument. -/
def jsIndexOfV : List JVal → String → Int
  | [], _ => -1
  | v :: l, x =>
    if v.isStr x then 0
    else
      let r := jsIndexOfV l x
      if r = -1 then -1 else r + 1

/-- `arr.splice(start, 1)`: JS clamps a negative `start` to `max(len+start,0)`
and a large one to `len`, then removes one element there if any. -/
def jsSpliceRemove1 (l : List String) (start : Int) : List String :=
  let len : Int := l.length
  let s : Nat := if start < 0 then (max (len + start) 0).toNat else min start.toNat l.length
  l.take s ++ l.drop (s + 1)

/-- `arr.splice(start, 0, x)`: insert `x` at the clamped position. -/
def jsSpliceInsert (l : List String) (start : Int) (x : String) : List String :=
  let len : Int := l.length
  let s : Nat := if start < 0 then (max (len + start) 0).toNat else min start.toNat l.length
  l.take s ++ x :: l.drop s

/-- `arr[i] = x` with `i` from `indexOf`: a negative `i` creates a plain
property on the array object and leaves the elements unchanged; an in-range
`i` replaces that element.  (An `i ≥ length` cannot arise from `indexOf`.) -/
def jsSetAt (l : List String) (i : Int) (x : String) : List String :=
  if i < 0 then l else l.set i.toNat x

/-! ### JS object primitives (property maps and the file table) -/

/-- Property read `o[k]` (`undefined` ↦ `none`). -/
def objGet (l : List (String × JVal)) (k : String) : Option JVal :=
  (l.find? (fun p => p.1 = k)).map (·.2)

/-- Property write `o[k] = v`: an existing key keeps its position (keys are
unique), a new key is appended (JS property-insertion order). -/
def objSet : List (String × JVal) → String → JVal → List (String × JVal)
  | [], k, v => [(k, v)]
  | p :: t, k, v => if p.1 = k then (k, v) :: t else p :: objSet t k v

/-- Property deletion `delete o[k]` (keys are unique in a JS object). -/
def objDel (l : List (String × JVal)) (k : String) : List (String × JVal) :=
  l.filter (fun p => p.1 ≠ k)

/-- `k in o`. -/
def objHas (l : List (String × JVal)) (k : String) : Bool :=
  l.any (fun p => p.1 = k)

/-- File-table read `cache.files[k]`. -/
def fget (l : List (String × FileRecord)) (k : String) : Option FileRecord :=
  (l.find? (fun p => p.1 = k)).map (·.2)

/-- File-table write `cache.files[k] = r`: an existing key keeps its
position (keys are unique), a new key is appended. -/
def fset : List (String × FileRecord) → String → FileRecord → List (String × FileRecord)
  | [], k, r => [(k, r)]
  | p :: t, k, r => if p.1 = k then (k, r) :: t else p :: fset t k r

/-- File-table deletion `delete cache.files[k]`. -/
def fdel (l : List (String × FileRecord)) (k : String) : List (String × FileRecord) :=
  l.filter (fun p => p.1 ≠ k)

/-- `Object.keys(cache.files)`. -/
def filesKeys (s : Storage) : List String := s.files.map (·.1)

/-! ### The cache operations (Storage.prototype) -/

/-- `cache.properties.filesOrder` read as the array of names the engine
maintains there.  `none` covers the states where the slot is missing or not
an array of names; on such states the order-manipulating methods are
unavailable (the JS code would fault on `push`/`splice`/`map`). -/
def decodeNames : List JVal → Option (List String)
  | [] => some []
  | JVal.str n :: t => (decodeNames t).map (n :: ·)
  | _ => none

def ordGet (s : Storage) : Option (List String) :=
  match objGet s.props "filesOrder" with
  | some (JVal.arr l) => decodeNames l
  | _ => none

/-- Store the (in-place mutated) `filesOrder` array back in the slot. -/
def setOrd (s : Storage) (ord : List String) : Storage :=
  { s with props := objSet s.props "filesOrder" (JVal.arr (ord.map JVal.str)) }

/-- `count()` (line 167): `Object.keys(this._cache.files).length`. -/
def Storage.count (s : Storage) : Nat := s.files.length

/-- `existsFile(file)` (line 171). -/
def existsFile (s : Storage) (file : String) : Option FileRecord := fget s.files file

/-- `copyFileObj(file)` (lines 31–42): falsy passes through, otherwise a
fresh object with exactly `index`, `name`, `data`, `selected`. -/
def copyFileObj : Option FileRecord → Option FileCopy
  | none => none
  | some f => some { index := f.index, name := f.name, data := f.data, selected := f.selected }

/-- `getFileList(origObj)` with `origObj` truthy (lines 175–182): map the
`filesOrder` array to the internal records. -/
def getFileListRaw (s : Storage) : Option (List (Option FileRecord)) :=
  (ordGet s).map (fun ord => ord.map (fun f => fget s.files f))

/-- `getFileList()` default branch: map `filesOrder` through `copyFileObj`. -/
def getFileListCopy (s : Storage) : Option (List (Option FileCopy)) :=
  (ordGet s).map (fun ord => ord.map (fun f => copyFileObj (fget s.files f)))

/-- `writeFile(file, data)` (lines 184–203).  The name argument is a JS
value: `none` for `null`/`undefined`; the empty string is the other falsy
name.  `data` is likewise `none` for `null`/`undefined` (normalized to `''`).
Returns the new state, the returned record (`none` for the falsy-name early
return), and the persister calls made. -/
def writeFile (s : Storage) (file : Option String) (data : Option String) :
    Option (Storage × Option FileRecord × List Eff) :=
  match file with
  | none => some (s, none, [])
  | some f =>
    if f = "" then some (s, none, [])
    else
      match fget s.files f with
      | some r0 =>
        let r1 := { r0 with data := data.getD "" }
        some ({ s with files := fset s.files f r1 }, some r1, [Eff.wFile f])
      | none =>
        match ordGet s with
        | none => none
        | some ord =>
          let r1 : FileRecord :=
            { index := s.maxIndex + 1, name := f, data := data.getD "", selected := none }
          some (setOrd { s with maxIndex := s.maxIndex + 1, files := fset s.files f r1 }
                  (ord ++ [f]),
                some r1, [Eff.wProps, Eff.wFile f])

/-- `updateFile(file, data)` (line 205): `existsFile(file) && writeFile(...)`. -/
def updateFile (s : Storage) (file : String) (data : Option String) :
    Option (Storage × Option FileRecord × List Eff) :=
  match fget s.files file with
  | none => some (s, none, [])
  | some _ => writeFile s (some file) data

/-- `removeFile(file)` (lines 214–226).  Returns `true` on removal; the JS
`undefined` returns are modeled as `false`. -/
def removeFile (s : Storage) (file : Option String) : Option (Storage × Bool × List Eff) :=
  match file with
  | none => some (s, false, [])
  | some f =>
    if f = "" then some (s, false, [])
    else
      match fget s.files f with
      | none => some (s, false, [])
      | some r0 =>
        match ordGet s with
        | none => none
        | some ord =>
          let ord1 := jsSpliceRemove1 ord (jsIndexOf ord r0.name)
          some (setOrd { s with files := fdel s.files r0.name } ord1, true,
                [Eff.unlink r0.index r0.name, Eff.wProps])

/-- `renameFile(file, newFile)` (lines 228–243).  Guard order as in the
source: falsy `newFile`, unknown `file`, existing `newFile`. -/
def renameFile (s : Storage) (file : String) (newFile : Option String) :
    Option (Storage × Bool × List Eff) :=
  match newFile with
  | none => some (s, false, [])
  | some nf =>
    if nf = "" then some (s, false, [])
    else
      match fget s.files file with
      | none => some (s, false, [])
      | some r0 =>
        if (fget s.files nf).isSome then some (s, false, [])
        else
          match ordGet s with
          | none => none
          | some ord =>
            let ord1 := jsSetAt ord (jsIndexOf ord r0.name) nf
            let r1 := { r0 with name := nf }
            some (setOrd { s with files := fset (fdel s.files r0.name) nf r1 } ord1, true,
                  [Eff.renameFs r0.index r0.name nf, Eff.wProps])

/-- `moveTo(fromName, toName)` (lines 245–259). -/
def moveTo (s : Storage) (fromName toName : String) : Option (Storage × Bool × List Eff) :=
  match ordGet s with
  | none => none
  | some ord =>
    let fi := jsIndexOf ord fromName
    if fi = -1 then some (s, false, [])
    else
      let ti := jsIndexOf ord toName
      if ti = -1 then some (s, false, [])
      else
        some (setOrd s (jsSpliceInsert (jsSpliceRemove1 ord fi) ti fromName), true,
              [Eff.wProps])

/-- `setProperty(name, value)` (lines 261–264). -/
def setProperty (s : Storage) (name : String) (v : JVal) : Storage × List Eff :=
  ({ s with props := objSet s.props name v }, [Eff.wProps])

/-- `hasProperty(name)` (line 266). -/
def hasProperty (s : Storage) (name : String) : Bool := objHas s.props name

/-- `setProperties(obj)` (lines 270–281): falsy argument returns early,
otherwise every key of `obj` is merged in. -/
def setProperties (s : Storage) (obj : Option (List (String × JVal))) :
    Storage × Bool × List Eff :=
  match obj with
  | none => (s, false, [])
  | some kvs =>
    ({ s with props := kvs.foldl (fun ps kv => objSet ps kv.1 kv.2) s.props }, true,
     [Eff.wProps])

/-- `getProperty(name)` (line 283). -/
def getProperty (s : Storage) (name : String) : Option JVal := objGet s.props name

/-- `removeProperty(name)` (lines 287–292): delete only a present key other
than the reserved `filesOrder`. -/
def removeProperty (s : Storage) (name : String) : Storage × List Eff :=
  if hasProperty s name && !(name == "filesOrder") then
    ({ s with props := objDel s.props name }, [Eff.wProps])
  else (s, [])

/-! ### Safe readers used by bootstrap (lines 8–29) -/

/-- Outcome of `fs.readFileSync`: the content, or `none` for a thrown error
(missing/unreadable file). -/
def readFileSafe (readRes : Option String) : String :=
  match readRes with
  | none => ""
  | some content => content

/-- `readJsonSafe`: `parseRes` is the outcome `JSON.parse` would give on the
content (`none` for a parse error).  An empty content short-circuits before
parsing; a falsy read, parse, or parsed value falls back to `{}`. -/
def jvalFalsy : JVal → Bool
  | JVal.null => true
  | JVal.bool b => !b
  | JVal.num n => n == 0
  | JVal.str s => s == ""
  | _ => false

def readJsonSafe (readRes : Option String) (parseRes : Option JVal) : JVal :=
  match readRes with
  | none => JVal.obj []
  | some content =>
    if content = "" then JVal.obj []
    else
      match parseRes with
      | none => JVal.obj []
      | some v => if jvalFalsy v then JVal.obj [] else v

/-! ### Bootstrap (constructor, lines 46–107) -/

/-- Highest physical index among the recovered records (line 59–70),
`-1 ` when the directory is empty. -/
def maxIndexOf (tab : List (String × FileRecord)) : Int :=
  tab.foldl (fun m p => if p.2.index > m then p.2.index else m) (-1)

/-- `properties.filesOrder` when it is an array (lines 88–91), else `null`. -/
def persistedOrder (props0 : List (String × JVal)) : Option (List JVal) :=
  match objGet props0 "filesOrder" with
  | some (JVal.arr l) => some l
  | _ => none

/-- `files[n].index` inside the bootstrap comparator; `n` is always a key of
the recovered table there, so the default is never consulted. -/
def idxOfName (tab : List (String × FileRecord)) (n : String) : Int :=
  ((fget tab n).map (·.index)).getD 0

/-- The bootstrap sort comparator (lines 92–105): when a persisted order
exists and holds both names, compare their positions there; otherwise
compare physical indexes.  Returns `1` or `-1`, never `0`. -/
def bootCmp (tab : List (String × FileRecord)) (po : Option (List JVal))
    (cur next : String) : Int :=
  match po with
  | some fo =>
    let ci := jsIndexOfV fo cur
    if ci ≠ -1 then
      let ni := jsIndexOfV fo next
      if ni ≠ -1 then (if ci > ni then 1 else -1)
      else (if idxOfName tab cur > idxOfName tab next then 1 else -1)
    else (if idxOfName tab cur > idxOfName tab next then 1 else -1)
  | none => (if idxOfName tab cur > idxOfName tab next then 1 else -1)

/-- The comparator as the Boolean "sorts no later than" relation used by the
sort (`cmp(a,b) < 0` means `a` first; the comparator never returns `0`). -/
def bootLe (tab : List (String × FileRecord)) (po : Option (List JVal))
    (a b : String) : Bool :=
  bootCmp tab po a b ≠ 1

/-- Insert into a sorted list at the first position allowed by the
comparator. -/
def insertSorted (le : String → String → Bool) (x : String) : List String → List String
  | [] => [x]
  | y :: t => if le x y then x :: y :: t else y :: insertSorted le x t

/-- A comparison sort standing in for `Array.prototype.sort`: for a
consistent comparator (the only case in which ECMAScript pins the result
down) every comparison sort returns the same list. -/
def sortBy (le : String → String → Bool) (l : List String) : List String :=
  l.foldr (insertSorted le) []

/-- Lines 88–105: the authoritative order computed at bootstrap —
`Object.keys(files)` sorted with the comparator. -/
def bootstrapOrder (tab : List (String × FileRecord)) (props0 : List (String × JVal)) :
    List String :=
  sortBy (bootLe tab (persistedOrder props0)) (tab.map (·.1))

/-- The cache right after the constructor returns (lines 82–106): the
recovered table and properties, with the computed order stored back via
`setProperty('filesOrder', ...)`. -/
def bootstrapStorage (tab : List (String × FileRecord)) (props0 : List (String × JVal)) :
    Storage :=
  (setProperty { maxIndex := maxIndexOf tab, files := tab, props := props0 }
    "filesOrder" (JVal.arr ((bootstrapOrder tab props0).map JVal.str))).1

/-- A fresh instance: bootstrap over an empty directory (no recovered files,
empty properties document). -/
def initStorage : Storage := bootstrapStorage [] []

/-! ### Operations as events, for lifetime-wide invariants -/

/-- One mutating call of the public interface. -/
inductive Op where
  | write : Option String → Option String → Op
  | update : String → Option String → Op
  | remove : Option String → Op
  | rename : String → Option String → Op
  | move : String → String → Op
  | setProp : String → JVal → Op
  | setProps : Option (List (String × JVal)) → Op
  | removeProp : String → Op

/-- Apply one call, keeping only the state. -/
def applyOp (s : Storage) : Op → Option Storage
  | Op.write f d => (writeFile s f d).map (·.1)
  | Op.update f d => (updateFile s f d).map (·.1)
  | Op.remove f => (removeFile s f).map (·.1)
  | Op.rename a b => (renameFile s a b).map (·.1)
  | Op.move a b => (moveTo s a b).map (·.1)
  | Op.setProp k v => some (setProperty s k v).1
  | Op.setProps kvs => some (setProperties s kvs).1
  | Op.removeProp k => some (removeProperty s k).1

/-- Run a sequence of calls. -/
def runOps (s : Storage) : List Op → Option Storage
  | [] => some s
  | op :: rest =>
    match applyOp s op with
    | none => none
    | some s1 => runOps s1 rest

/-- The indexes an operation allocates: `writeFile` on a truthy name absent
from the table takes the `!fileData` branch (lines 192–199) and issues
`++cache.maxIndex`; no other call allocates. -/
def opIssued (s : Storage) : Op → List Int
  | Op.write (some f) _ => if f ≠ "" ∧ fget s.files f = none then [s.maxIndex + 1] else []
  | _ => []

/-- All indexes issued along a run, in call order. -/
def runIssued (s : Storage) : List Op → List Int
  | [] => []
  | op :: rest =>
    opIssued s op ++
      (match applyOp s op with
       | none => []
       | some s1 => runIssued s1 rest)

/-! ### The write-behind persister, one unit (lines 111–154)

`_writeProperties` and `_writeFile` instantiate the same protocol: flags
`pending`/`waiting`, a retry timer, and an asynchronous write of the value
read at issue time.  One unit is modeled as a state with the in-memory value
`mem`, the last successfully persisted value `disk`, the two flags, the
timer, and the value of the write in flight (if any); the environment's
events are a caller mutation-plus-request, the completion callback, and the
retry timer firing. -/
structure PersistSt where
  mem : String
  disk : String
  pending : Bool
  waiting : Bool
  timer : Bool
  inflight : Option String
deriving Repr, DecidableEq

/-- The not-pending branch of a request (lines 117–119 / 140–142):
cancel the retry timer, set `pending`, start writing the current value. -/
def issueWrite (s : PersistSt) : PersistSt :=
  { s with timer := false, pending := true, inflight := some s.mem }

/-- A persistence request (lines 113–119 / 136–142): while a write is in
flight only `waiting` is set; otherwise a write is issued. -/
def request (s : PersistSt) : PersistSt :=
  if s.pending then { s with waiting := true } else issueWrite s

/-- Events: a caller stores a new value and requests persistence (the tail
of `writeFile`/`setProperty`); the in-flight write completes (with success
or failure); the retry timer fires.  `none` marks an event that is not
enabled in the state. -/
inductive PEv where
  | write : String → PEv
  | done : Bool → PEv
  | fire : PEv

/-- One step of the protocol, mirroring the completion callback
(lines 120–127 / 143–152): clear `pending`; a `waiting` unit immediately
re-issues with the current value; otherwise a failure arms the retry timer. -/
def pstep (s : PersistSt) : PEv → Option PersistSt
  | PEv.write d => some (request { s with mem := d })
  | PEv.done ok =>
    match s.inflight with
    | none => none
    | some d =>
      let s1 := { s with pending := false, inflight := none,
                         disk := if ok then d else s.disk }
      some (if s1.waiting then issueWrite { s1 with waiting := false }
            else if ok then s1 else { s1 with timer := true })
  | PEv.fire => if s.timer then some (request { s with timer := false }) else none

/-- Run the protocol over a list of events. -/
def prun (s : PersistSt) : List PEv → Option PersistSt
  | [] => some s
  | e :: rest =>
    match pstep s e with
    | none => none
    | some s1 => prun s1 rest

/-- No request outstanding: no write in flight, no coalesced request, no
retry scheduled. -/
def quiescent (s : PersistSt) : Bool := !s.pending && !s.waiting && !s.timer

/-- The protocol invariant: `pending` tracks the in-flight write; a pending
write with no newer request carries the current value; a quiescent unit has
its current value on disk. -/
def PInv (s : PersistSt) : Prop :=
  (s.pending = s.inflight.isSome) ∧
  (s.pending = true → s.waiting = false → s.inflight = some s.mem) ∧
  (quiescent s = true → s.disk = s.mem)

/-! ### Basic facts about the primitives -/

theorem decodeNames_map_str (l : List String) : decodeNames (l.map JVal.str) = some l := by
  induction l with
  | nil => rfl
  | cons a t ih => simp [decodeNames, ih]

theorem objGet_cons (p : String × JVal) (t : List (String × JVal)) (k : String) :
    objGet (p :: t) k = if p.1 = k then some p.2 else objGet t k := by
  by_cases hp : p.1 = k <;> simp [objGet, List.find?, hp]

theorem objDel_cons (p : String × JVal) (t : List (String × JVal)) (k : String) :
    objDel (p :: t) k = if p.1 = k then objDel t k else p :: objDel t k := by
  by_cases hp : p.1 = k <;> simp [objDel, List.filter, hp]

theorem fget_cons (p : String × FileRecord) (t : List (String × FileRecord)) (k : String) :
    fget (p :: t) k = if p.1 = k then some p.2 else fget t k := by
  by_cases hp : p.1 = k <;> simp [fget, List.find?, hp]

theorem fdel_cons (p : String × FileRecord) (t : List (String × FileRecord)) (k : String) :
    fdel (p :: t) k = if p.1 = k then fdel t k else p :: fdel t k := by
  by_cases hp : p.1 = k <;> simp [fdel, List.filter, hp]

theorem objGet_objSet_self (l : List (String × JVal)) (k : String) (v : JVal) :
    objGet (objSet l k v) k = some v := by
  induction l with
  | nil => simp [objGet, objSet, List.find?]
  | cons p t ih =>
    by_cases hp : p.1 = k
    · simp [objSet, hp, objGet_cons]
    · simpa [objSet, hp, objGet_cons] using ih

theorem objGet_objSet_ne (l : List (String × JVal)) (k k' : String) (v : JVal)
    (h : k' ≠ k) : objGet (objSet l k v) k' = objGet l k' := by
  induction l with
  | nil => simp [objGet, objSet, List.find?, Ne.symm h]
  | cons p t ih =>
    by_cases hp : p.1 = k
    · simp [objSet, hp, objGet_cons, Ne.symm h]
    · simp [objSet, hp, objGet_cons, ih]

theorem objGet_objDel_self (l : List (String × JVal)) (k : String) :
    objGet (objDel l k) k = none := by
  induction l with
  | nil => simp [objGet, objDel]
  | cons p t ih =>
    by_cases hp : p.1 = k
    · simpa [objDel_cons, hp] using ih
    · simpa [objDel_cons, hp, objGet_cons] using ih

theorem objGet_objDel_ne (l : List (String × JVal)) (k k' : String)
    (h : k' ≠ k) : objGet (objDel l k) k' = objGet l k' := by
  induction l with
  | nil => simp [objGet, objDel]
  | cons p t ih =>
    by_cases hp : p.1 = k
    · simp [objDel_cons, hp, objGet_cons, Ne.symm h, ih]
    · simp [objDel_cons, hp, objGet_cons, ih]

theorem objHas_false_iff (l : List (String × JVal)) (k : String) :
    objHas l k = false ↔ objGet l k = none := by
  induction l with
  | nil => simp [objHas, objGet]
  | cons p t ih =>
    by_cases hp : p.1 = k
    · simp [objHas, objGet_cons, hp]
    · simpa [objHas, objGet_cons, hp] using ih

theorem fget_fset_self (l : List (String × FileRecord)) (k : String) (r : FileRecord) :
    fget (fset l k r) k = some r := by
  induction l with
  | nil => simp [fget, fset, List.find?]
  | cons p t ih =>
    by_cases hp : p.1 = k
    · simp [fset, hp, fget_cons]
    · simpa [fset, hp, fget_cons] using ih

theorem fget_fset_ne (l : List (String × FileRecord)) (k k' : String) (r : FileRecord)
    (h : k' ≠ k) : fget (fset l k r) k' = fget l k' := by
  induction l with
  | nil => simp [fget, fset, List.find?, Ne.symm h]
  | cons p t ih =>
    by_cases hp : p.1 = k
    · simp [fset, hp, fget_cons, Ne.symm h]
    · simp [fset, hp, fget_cons, ih]

theorem fget_fdel_self (l : List (String × FileRecord)) (k : String) :
    fget (fdel l k) k = none := by
  induction l with
  | nil => simp [fget, fdel]
  | cons p t ih =>
    by_cases hp : p.1 = k
    · simpa [fdel_cons, hp] using ih
    · simpa [fdel_cons, hp, fget_cons] using ih

theorem fget_fdel_ne (l : List (String × FileRecord)) (k k' : String)
    (h : k' ≠ k) : fget (fdel l k) k' = fget l k' := by
  induction l with
  | nil => simp [fget, fdel]
  | cons p t ih =>
    by_cases hp : p.1 = k
    · simp [fdel_cons, hp, fget_cons, Ne.symm h, ih]
    · simp [fdel_cons, hp, fget_cons, ih]

theorem fget_eq_none_iff (l : List (String × FileRecord)) (k : String) :
    fget l k = none ↔ k ∉ l.map (·.1) := by
  induction l with
  | nil => simp [fget]
  | cons p t ih =>
    by_cases hp : p.1 = k
    · simp [fget_cons, hp]
    · simpa [fget_cons, hp, Ne.symm hp] using ih

theorem keys_fset (l : List (String × FileRecord)) (k : String) (r : FileRecord) :
    (fset l k r).map (·.1)
      = if k ∈ l.map (·.1) then l.map (·.1) else l.map (·.1) ++ [k] := by
  induction l with
  | nil => simp [fset]
  | cons p t ih =>
    by_cases hp : p.1 = k
    · simp [fset, hp]
    · simp only [fset, hp, if_false, List.map_cons, ih]
      by_cases hm : k ∈ t.map (·.1) <;> simp [hm, Ne.symm hp, hp]

theorem keys_fdel (l : List (String × FileRecord)) (k : String) :
    (fdel l k).map (·.1) = (l.map (·.1)).filter (· ≠ k) := by
  induction l with
  | nil => simp [fdel]
  | cons p t ih =>
    by_cases hp : p.1 = k
    · simp [fdel_cons, hp, ih, List.filter]
    · simp [fdel_cons, hp, ih, List.filter]

theorem ordGet_setOrd (s : Storage) (ord : List String) :
    ordGet (setOrd s ord) = some ord := by
  simp [ordGet, setOrd, objGet_objSet_self, decodeNames_map_str]

theorem ordGet_congr (s : Storage) (ps : List (String × JVal))
    (h : objGet ps "filesOrder" = objGet s.props "filesOrder") :
    ordGet { s with props := ps } = ordGet s := by
  simp only [ordGet, h]

theorem jsIndexOf_eq_neg_one (l : List String) (x : String) (h : x ∉ l) :
    jsIndexOf l x = -1 := by
  induction l with
  | nil => rfl
  | cons a t ih =>
    have ha : ¬ a = x := fun e => h (e ▸ List.mem_cons_self a t)
    have hx : x ∉ t := fun m => h (List.mem_cons_of_mem a m)
    simp [jsIndexOf, ha, ih hx]

theorem jsIndexOf_eq_idx (l : List String) (x : String) (h : x ∈ l) :
    jsIndexOf l x = (l.indexOf x : Int) := by
  induction l with
  | nil => cases h
  | cons a t ih =>
    by_cases ha : a = x
    · subst ha; simp [jsIndexOf, List.indexOf_cons_self]
    · have hx : x ∈ t := by
        rcases List.mem_cons.mp h with h1 | h1
        · exact absurd h1.symm ha
        · exact h1
      have hne : jsIndexOf t x ≠ -1 := by rw [ih hx]; omega
      rw [List.indexOf_cons_ne _ ha]
      simp only [jsIndexOf, ha, if_false, hne, ih hx]
      push_cast
      omega

theorem jsSpliceRemove1_indexOf (l : List String) (x : String) (h : x ∈ l) :
    jsSpliceRemove1 l (jsIndexOf l x) = l.erase x := by
  have hidx := jsIndexOf_eq_idx l x h
  have hlt : l.indexOf x < l.length := List.indexOf_lt_length.mpr h
  simp only [jsSpliceRemove1, hidx]
  have h0 : ¬ ((l.indexOf x : Int) < 0) := by omega
  simp only [h0, if_false, Int.toNat_natCast]
  have hmin : min (l.indexOf x) l.length = l.indexOf x := by omega
  rw [hmin, ← List.eraseIdx_eq_take_drop_succ, List.eraseIdx_indexOf_eq_erase]

theorem jsSetAt_indexOf_eq (l : List String) (x y : String) (h : x ∈ l) :
    jsSetAt l (jsIndexOf l x) y
      = l.take (l.indexOf x) ++ y :: l.drop (l.indexOf x + 1) := by
  have hidx := jsIndexOf_eq_idx l x h
  have hlt : l.indexOf x < l.length := List.indexOf_lt_length.mpr h
  simp only [jsSetAt, hidx]
  have h0 : ¬ ((l.indexOf x : Int) < 0) := by omega
  simp only [h0, if_false, Int.toNat_natCast]
  exact List.set_eq_take_cons_drop _ hlt

theorem jsSetAt_indexOf_perm (l : List String) (x y : String) (h : x ∈ l) :
    (jsSetAt l (jsIndexOf l x) y).Perm (y :: l.erase x) := by
  rw [jsSetAt_indexOf_eq l x y h]
  have he : l.erase x = l.take (l.indexOf x) ++ l.drop (l.indexOf x + 1) := by
    rw [← List.eraseIdx_eq_take_drop_succ, List.eraseIdx_indexOf_eq_erase]
  rw [he]
  exact List.perm_middle

theorem jsSpliceInsert_perm (l : List String) (i : Int) (x : String) :
    (jsSpliceInsert l i x).Perm (x :: l) := by
  simp only [jsSpliceInsert]
  exact (List.perm_middle).trans (by rw [List.take_append_drop])

theorem jsSpliceInsert_in_range (l : List String) (i : Int) (x : String)
    (h0 : 0 ≤ i) (h1 : i.toNat ≤ l.length) :
    jsSpliceInsert l i x = l.take i.toNat ++ x :: l.drop i.toNat := by
  simp only [jsSpliceInsert]
  have h2 : ¬ i < 0 := by omega
  simp only [h2, if_false]
  have hmin : min i.toNat l.length = i.toNat := by omega
  rw [hmin]

/-! ### Structural invariants of a live store -/

/-- `filesOrder` holds an array of names that is a permutation of the file
table's keys. -/
def permInv (s : Storage) : Prop :=
  match ordGet s with
  | some names => names.Perm (filesKeys s)
  | none => False

instance (s : Storage) : Decidable (permInv s) :=
  match h : ordGet s with
  | some names => decidable_of_iff (names.Perm (filesKeys s)) (by simp [permInv, h])
  | none => isFalse (by simp [permInv, h])

/-- The state of a live store: unique file-table keys (a JS object) together
with the order/table permutation. -/
def StInv (s : Storage) : Prop := (filesKeys s).Nodup ∧ permInv s

/-- Every table entry's record carries its own key as `name` (the engine
keys records by their `name` throughout). -/
def keyedInv (s : Storage) : Prop := ∀ p ∈ s.files, p.2.name = p.1

theorem permInv_elim (s : Storage) (h : permInv s) :
    ∃ names, ordGet s = some names ∧ names.Perm (filesKeys s) := by
  unfold permInv at h
  cases h2 : ordGet s with
  | none => rw [h2] at h; cases h
  | some names => rw [h2] at h; exact ⟨names, rfl, h⟩

theorem permInv_intro (s : Storage) (names : List String)
    (h1 : ordGet s = some names) (h2 : names.Perm (filesKeys s)) : permInv s := by
  unfold permInv
  rw [h1]
  exact h2

/-! ### C10 — writeFile with a falsy name -/

/-- C10: for every storage state and every data value, `writeFile` with a
falsy name (`null`/`undefined`, modeled `none`, or the empty string) returns
no record, leaves the file table, `maxIndex`, `filesOrder` and the property
map unchanged, and makes no persistence call. -/
theorem c10_writeFile_falsy_noop (s : Storage) (d : Option String) :
    writeFile s none d = some (s, none, []) ∧
    writeFile s (some "") d = some (s, none, []) := by
  exact ⟨rfl, rfl⟩

/-! ### C7 — the safe readers never propagate an error -/

/-- C7: the bootstrap load routines recover from every fault: a missing or
unreadable file body reads as the empty string, and a missing, unreadable or
malformed properties document reads as the empty map. -/
theorem c7_safe_readers (p : Option JVal) (s : String) :
    readFileSafe none = "" ∧
    readJsonSafe none p = JVal.obj [] ∧
    readJsonSafe (some s) none = JVal.obj [] := by
  refine ⟨rfl, rfl, ?_⟩
  by_cases hs : s = "" <;> simp [readJsonSafe, hs]

/-! ### C9 — removeProperty deletes exactly one non-reserved key -/

/-- C9: `removeProperty` on the reserved `filesOrder` key leaves the state
unchanged; on any other present key it deletes exactly that key (every other
property reads unchanged); on an absent key it leaves the state unchanged. -/
theorem c9_removeProperty (s : Storage) (k : String) :
    (removeProperty s "filesOrder").1 = s ∧
    (hasProperty s k = true → k ≠ "filesOrder" →
      (removeProperty s k).1.props = objDel s.props k ∧
      getProperty (removeProperty s k).1 k = none ∧
      ∀ k', k' ≠ k → getProperty (removeProperty s k).1 k' = getProperty s k') ∧
    (hasProperty s k = false → (removeProperty s k).1 = s) := by
  refine ⟨?_, ?_, ?_⟩
  · simp [removeProperty]
  · intro hk hne
    have hcond : (hasProperty s k && !(k == "filesOrder")) = true := by
      simp [hk, hne]
    refine ⟨by simp [removeProperty, hcond], ?_, ?_⟩
    · simp [removeProperty, hcond, getProperty, objGet_objDel_self]
    · intro k' hk'
      simp [removeProperty, hcond, getProperty, objGet_objDel_ne _ _ _ hk']
  · intro hk
    simp [removeProperty, hk]

/-- Witness for C9 at a concrete store holding one user property. -/
theorem c9_removeProperty_witness :
    hasProperty (setProperty initStorage "x" JVal.null).1 "x" = true ∧
    getProperty
      (removeProperty (setProperty initStorage "x" JVal.null).1 "x").1 "x" = none := by
  refine ⟨rfl, ?_⟩
  exact ((c9_removeProperty (setProperty initStorage "x" JVal.null).1 "x").2.1 rfl
    (by decide)).2.1

instance (s : Storage) : Decidable (StInv s) := by
  unfold StInv
  infer_instance

instance (s : Storage) : Decidable (keyedInv s) := by
  unfold keyedInv
  exact List.decidableBAll _ _

theorem setOrd_files (s : Storage) (ord : List String) : (setOrd s ord).files = s.files := rfl

theorem setOrd_maxIndex (s : Storage) (ord : List String) :
    (setOrd s ord).maxIndex = s.maxIndex := rfl

theorem fget_mem (l : List (String × FileRecord)) (k : String) (r : FileRecord)
    (h : fget l k = some r) : (k, r) ∈ l := by
  induction l with
  | nil => simp [fget] at h
  | cons p t ih =>
    rw [fget_cons] at h
    by_cases hp : p.1 = k
    · rw [if_pos hp] at h
      injection h with h2
      have hpe : p = (k, r) := by
        obtain ⟨p1, p2⟩ := p
        simp only at hp h2
        rw [hp, h2]
      exact List.mem_cons.mpr (Or.inl hpe.symm)
    · rw [if_neg hp] at h
      exact List.mem_cons_of_mem p (ih h)

theorem fget_some_key_mem (l : List (String × FileRecord)) (k : String) (r : FileRecord)
    (h : fget l k = some r) : k ∈ l.map (·.1) := by
  by_contra hc
  rw [← fget_eq_none_iff] at hc
  rw [h] at hc
  cases hc

/-! ### C6 — renameFile guards and effect -/

/-- C6: `renameFile(a, b)` fails, leaving everything unchanged, when `b` is
falsy, when `a` is unknown, or when `b` already exists; when `a` exists,
`b` is a fresh nonempty name, the record keeps its index and data, the
table key and the `filesOrder` entry at `a`'s position become `b`, every
other table entry is unchanged, and the on-disk slot is renamed. -/
theorem c6_renameFile (s : Storage) (a b : String) (hst : StInv s) (hk : keyedInv s) :
    (renameFile s a none = some (s, false, []) ∧
     renameFile s a (some "") = some (s, false, [])) ∧
    (fget s.files a = none → renameFile s a (some b) = some (s, false, [])) ∧
    ((fget s.files b).isSome = true → renameFile s a (some b) = some (s, false, [])) ∧
    (∀ r, fget s.files a = some r → fget s.files b = none → b ≠ "" →
      ∃ s' names,
        renameFile s a (some b)
          = some (s', true, [Eff.renameFs r.index a b, Eff.wProps]) ∧
        ordGet s = some names ∧
        fget s'.files b = some { r with name := b } ∧
        fget s'.files a = none ∧
        (∀ c, c ≠ a → c ≠ b → fget s'.files c = fget s.files c) ∧
        s'.maxIndex = s.maxIndex ∧
        ordGet s'
          = some (names.take (names.indexOf a) ++ b :: names.drop (names.indexOf a + 1))) := by
  refine ⟨⟨rfl, rfl⟩, ?_, ?_, ?_⟩
  · intro ha
    by_cases hb : b = "" <;> simp [renameFile, hb, ha]
  · intro hb
    by_cases hbe : b = ""
    · simp [renameFile, hbe]
    · cases hfa : fget s.files a with
      | none => simp [renameFile, hbe, hfa]
      | some r => simp [renameFile, hbe, hfa, hb]
  · intro r ha hb hbe
    obtain ⟨names, hord, hperm⟩ := permInv_elim s hst.2
    have hab : a ≠ b := by
      intro e
      rw [e, hb] at ha
      cases ha
    have rname : r.name = a := hk (a, r) (fget_mem s.files a r ha)
    have hamem : a ∈ names := hperm.mem_iff.mpr (fget_some_key_mem s.files a r ha)
    have hres : renameFile s a (some b)
        = some (setOrd { s with files := fset (fdel s.files r.name) b { r with name := b } }
                  (jsSetAt names (jsIndexOf names r.name) b), true,
                [Eff.renameFs r.index r.name b, Eff.wProps]) := by
      simp [renameFile, hbe, ha, hb, hord]
    rw [rname] at hres
    refine ⟨_, names, hres, hord, ?_, ?_, ?_, ?_, ?_⟩
    · rw [setOrd_files, fget_fset_self]
    · rw [setOrd_files, fget_fset_ne _ _ _ _ hab, fget_fdel_self]
    · intro c hca hcb
      rw [setOrd_files, fget_fset_ne _ _ _ _ hcb, fget_fdel_ne _ _ _ hca]
    · rw [setOrd_maxIndex]
    · rw [ordGet_setOrd, jsSetAt_indexOf_eq names a b hamem]

/-- A two-file store used to instantiate hypotheses of the invariant-guarded
theorems. -/
def sampAB : Storage :=
  { maxIndex := 1,
    files := [("a", ⟨0, "a", "da", none⟩), ("b", ⟨1, "b", "db", none⟩)],
    props := [("filesOrder", JVal.arr [JVal.str "a", JVal.str "b"])] }

/-- Witness for C6: renaming `a` to the fresh name `c` in the two-file
store. -/
theorem c6_renameFile_witness :
    ∃ s' names,
      renameFile sampAB "a" (some "c")
        = some (s', true, [Eff.renameFs 0 "a" "c", Eff.wProps]) ∧
      ordGet sampAB = some names ∧
      fget s'.files "c" = some ⟨0, "c", "da", none⟩ ∧
      fget s'.files "a" = none := by
  obtain ⟨s', names, h1, h2, h3, h4, _⟩ :=
    (c6_renameFile sampAB "a" "c" (by decide) (by decide)).2.2.2
      ⟨0, "a", "da", none⟩ rfl rfl (by decide)
  exact ⟨s', names, h1, h2, h3, h4⟩

/-! ### C4 — moveTo reorders without losing or disturbing names -/

/-- C4: from any state whose `filesOrder` is a permutation of the table
keys, `moveTo(x, y)` with `x` or `y` absent from the order reports failure
and changes nothing; with both present it succeeds, the file table is
untouched, and the new order is the old one with `x` removed and reinserted
at `y`'s prior position — `x` ends up at that position and the relative
order of all other names is unchanged. -/
theorem c4_moveTo (s : Storage) (hst : StInv s) :
    ∃ names, ordGet s = some names ∧
      (∀ x y, x ∉ names ∨ y ∉ names → moveTo s x y = some (s, false, [])) ∧
      (∀ x y, x ∈ names → y ∈ names →
        ∃ s' names', moveTo s x y = some (s', true, [Eff.wProps]) ∧
          s'.files = s.files ∧ s'.maxIndex = s.maxIndex ∧
          ordGet s' = some names' ∧
          names' = (names.erase x).take (names.indexOf y)
            ++ x :: (names.erase x).drop (names.indexOf y) ∧
          names'[names.indexOf y]? = some x ∧
          names'.erase x = names.erase x) := by
  obtain ⟨names, hord, hperm⟩ := permInv_elim s hst.2
  have hnd : names.Nodup := hperm.nodup_iff.mpr hst.1
  refine ⟨names, hord, ?_, ?_⟩
  · intro x y hxy
    by_cases hx : x ∈ names
    · rcases hxy with hx' | hy
      · exact absurd hx hx'
      · have hfi : jsIndexOf names x ≠ -1 := by
          rw [jsIndexOf_eq_idx names x hx]; omega
        simp [moveTo, hord, hfi, jsIndexOf_eq_neg_one names y hy]
    · simp [moveTo, hord, jsIndexOf_eq_neg_one names x hx]
  · intro x y hx hy
    have hfi : jsIndexOf names x ≠ -1 := by
      rw [jsIndexOf_eq_idx names x hx]; omega
    have hti : jsIndexOf names y ≠ -1 := by
      rw [jsIndexOf_eq_idx names y hy]; omega
    have hylt : names.indexOf y < names.length := List.indexOf_lt_length.mpr hy
    have herase : jsSpliceRemove1 names (jsIndexOf names x) = names.erase x :=
      jsSpliceRemove1_indexOf names x hx
    have hlen : (names.erase x).length = names.length - 1 := List.length_erase_of_mem hx
    have hxne : 1 ≤ names.length := by
      cases names with
      | nil => cases hx
      | cons a t => simp
    have hins : jsSpliceInsert (names.erase x) (jsIndexOf names y) x
        = (names.erase x).take (names.indexOf y)
          ++ x :: (names.erase x).drop (names.indexOf y) := by
      rw [jsIndexOf_eq_idx names y hy]
      have := jsSpliceInsert_in_range (names.erase x) (names.indexOf y) x
        (by omega) (by omega)
      simpa using this
    have hres : moveTo s x y
        = some (setOrd s ((names.erase x).take (names.indexOf y)
            ++ x :: (names.erase x).drop (names.indexOf y)), true, [Eff.wProps]) := by
      simp [moveTo, hord, hfi, hti, herase, hins]
    have hxnotin : x ∉ names.erase x := fun hm => (hnd.mem_erase_iff.mp hm).1 rfl
    have htklen : ((names.erase x).take (names.indexOf y)).length = names.indexOf y := by
      rw [List.length_take]
      omega
    refine ⟨_, _, hres, setOrd_files _ _, setOrd_maxIndex _ _, ordGet_setOrd _ _, rfl,
      ?_, ?_⟩
    · rw [List.getElem?_append_right (by omega), htklen]
      simp
    · rw [List.erase_append_right _
        (fun hm => hxnotin (List.take_subset _ _ hm))]
      rw [List.erase_cons_head, List.take_append_drop]

/-- Witness for C4: moving `b` before `a` in the two-file store. -/
theorem c4_moveTo_witness :
    ∃ s' names', moveTo sampAB "b" "a" = some (s', true, [Eff.wProps]) ∧
      ordGet s' = some names' ∧ names' = ["b", "a"] := by
  obtain ⟨names, hord, _, hs⟩ := c4_moveTo sampAB (by decide)
  have hn : names = ["a", "b"] := by
    have h2 : ordGet sampAB = some ["a", "b"] := rfl
    rw [h2] at hord
    exact (Option.some.inj hord).symm
  subst hn
  obtain ⟨s', names', h1, _, _, h4, h5, _, _⟩ := hs "b" "a" (by decide) (by decide)
  refine ⟨s', names', h1, h4, ?_⟩
  rw [h5]
  decide

/-! ### C8 — getFileList shape -/

theorem exists_recs (fs : List (String × FileRecord)) (names : List String)
    (h : ∀ n ∈ names, ∃ r, fget fs n = some r ∧ r.name = n) :
    ∃ recs : List FileRecord,
      names.map (fun n => fget fs n) = recs.map some ∧ recs.map (·.name) = names := by
  induction names with
  | nil => exact ⟨[], rfl, rfl⟩
  | cons n t ih =>
    obtain ⟨r, hr, hrn⟩ := h n (List.mem_cons_self n t)
    obtain ⟨recs, h1, h2⟩ := ih (fun m hm => h m (List.mem_cons_of_mem n hm))
    exact ⟨r :: recs, by simp [hr, h1], by simp [hrn, h2]⟩

/-- C8: from any state whose `filesOrder` is a permutation of the table keys
(and records carry their key as `name`), `getFileList` yields one entry per
table key in exactly the `filesOrder` sequence; the raw variant returns the
internal records, and the default variant returns fresh objects exposing
exactly `index`, `name`, `data`, `selected` of each record. -/
theorem c8_getFileList (s : Storage) (hst : StInv s) (hk : keyedInv s) :
    ∃ (names : List String) (recs : List FileRecord), ordGet s = some names ∧
      names.Perm (filesKeys s) ∧
      recs.length = s.count ∧
      recs.map (·.name) = names ∧
      getFileListRaw s = some (recs.map some) ∧
      getFileListCopy s = some (recs.map (fun r =>
        some { index := r.index, name := r.name, data := r.data,
               selected := r.selected : FileCopy })) := by
  obtain ⟨names, hord, hperm⟩ := permInv_elim s hst.2
  have hrec : ∀ n ∈ names, ∃ r, fget s.files n = some r ∧ r.name = n := by
    intro n hn
    have hkey : n ∈ filesKeys s := hperm.mem_iff.mp hn
    cases hf : fget s.files n with
    | none => exact absurd hkey ((fget_eq_none_iff s.files n).mp hf)
    | some r => exact ⟨r, rfl, hk (n, r) (fget_mem s.files n r hf)⟩
  obtain ⟨recs, h1, h2⟩ := exists_recs s.files names hrec
  refine ⟨names, recs, hord, hperm, ?_, h2, ?_, ?_⟩
  · have hl1 : names.length = (filesKeys s).length := hperm.length_eq
    have hl2 : recs.length = names.length := by
      rw [← h2, List.length_map]
    simp only [Storage.count, hl2, hl1, filesKeys, List.length_map]
  · simp only [getFileListRaw, hord, Option.map_some']
    rw [h1]
  · simp only [getFileListCopy, hord, Option.map_some']
    have : names.map (fun f => copyFileObj (fget s.files f))
        = (names.map (fun n => fget s.files n)).map copyFileObj := by
      rw [List.map_map]
      rfl
    rw [this, h1, List.map_map]
    rfl

/-- Witness for C8 at the two-file store. -/
theorem c8_getFileList_witness :
    ∃ (names : List String) (recs : List FileRecord), ordGet sampAB = some names ∧
      recs.map (·.name) = names ∧
      getFileListRaw sampAB = some (recs.map some) := by
  obtain ⟨names, recs, h1, _, _, h4, h5, _⟩ :=
    c8_getFileList sampAB (by decide) (by decide)
  exact ⟨names, recs, h1, h4, h5⟩

/-! ### C2 — preservation of the order/table permutation -/

theorem mem_fset (l : List (String × FileRecord)) (k : String) (r : FileRecord)
    (p : String × FileRecord) (h : p ∈ fset l k r) : p = (k, r) ∨ p ∈ l := by
  induction l with
  | nil => simp [fset] at h; exact Or.inl h
  | cons q t ih =>
    by_cases hq : q.1 = k
    · rw [fset, if_pos hq] at h
      rcases List.mem_cons.mp h with h1 | h1
      · exact Or.inl h1
      · exact Or.inr (List.mem_cons_of_mem q h1)
    · rw [fset, if_neg hq] at h
      rcases List.mem_cons.mp h with h1 | h1
      · exact Or.inr (h1 ▸ List.mem_cons_self q t)
      · rcases ih h1 with h2 | h2
        · exact Or.inl h2
        · exact Or.inr (List.mem_cons_of_mem q h2)

theorem keyed_fset (l : List (String × FileRecord)) (k : String) (r : FileRecord)
    (hl : ∀ p ∈ l, p.2.name = p.1) (hr : r.name = k) :
    ∀ p ∈ fset l k r, p.2.name = p.1 := by
  intro p hp
  rcases mem_fset l k r p hp with h | h
  · rw [h]; exact hr
  · exact hl p h

theorem keyed_fdel (l : List (String × FileRecord)) (k : String)
    (hl : ∀ p ∈ l, p.2.name = p.1) : ∀ p ∈ fdel l k, p.2.name = p.1 :=
  fun p hp => hl p (List.mem_of_mem_filter hp)

theorem nodup_filter_ne_eq_erase (l : List String) (a : String) (h : l.Nodup) :
    l.filter (fun x => x ≠ a) = l.erase a := by
  rw [h.erase_eq_filter]
  apply List.filter_congr
  intro x _
  by_cases hx : x = a <;> simp [hx]

/-- `writeFile` on a well-formed state succeeds and preserves
well-formedness. -/
theorem writeFile_wf (s : Storage) (f d : Option String)
    (hst : StInv s) (hk : keyedInv s) :
    ∃ s' ro e, writeFile s f d = some (s', ro, e) ∧ StInv s' ∧ keyedInv s' := by
  obtain ⟨names, hord, hperm⟩ := permInv_elim s hst.2
  cases f with
  | none => exact ⟨s, none, [], rfl, hst, hk⟩
  | some f =>
    by_cases hf : f = ""
    · exact ⟨s, none, [], by simp [writeFile, hf], hst, hk⟩
    · cases hfget : fget s.files f with
      | some r0 =>
        refine ⟨{ s with files := fset s.files f ({ r0 with data := d.getD "" }) },
          some { r0 with data := d.getD "" }, [Eff.wFile f],
          by simp [writeFile, hf, hfget], ⟨?_, ?_⟩, ?_⟩
        · have hkeys : (fset s.files f { r0 with data := d.getD "" }).map (·.1)
              = s.files.map (·.1) := by
            rw [keys_fset]
            simp [fget_some_key_mem s.files f r0 hfget]
          show ((fset s.files f _).map (·.1)).Nodup
          rw [hkeys]
          exact hst.1
        · apply permInv_intro _ names
          · exact hord
          · show names.Perm ((fset s.files f _).map (·.1))
            rw [keys_fset]
            simpa [fget_some_key_mem s.files f r0 hfget] using hperm
        · apply keyed_fset _ _ _ hk
          exact hk (f, r0) (fget_mem s.files f r0 hfget)
      | none =>
        have hnew : f ∉ s.files.map (·.1) := (fget_eq_none_iff s.files f).mp hfget
        refine ⟨setOrd { s with maxIndex := s.maxIndex + 1
                                files := fset s.files f ⟨s.maxIndex + 1, f, d.getD "", none⟩ }
            (names ++ [f]), some ⟨s.maxIndex + 1, f, d.getD "", none⟩,
            [Eff.wProps, Eff.wFile f],
            by simp [writeFile, hf, hfget, hord], ⟨?_, ?_⟩, ?_⟩
        · show ((fset s.files f _).map (·.1)).Nodup
          rw [keys_fset]
          simp only [hnew, if_false, List.nodup_append]
          exact ⟨hst.1, List.nodup_singleton f, by simpa using hnew⟩
        · apply permInv_intro _ (names ++ [f])
          · exact ordGet_setOrd _ _
          · show (names ++ [f]).Perm ((fset s.files f _).map (·.1))
            rw [keys_fset]
            simp only [hnew, if_false]
            exact hperm.append (List.Perm.refl [f])
        · show ∀ p ∈ fset s.files f _, p.2.name = p.1
          exact keyed_fset _ _ _ hk rfl

theorem jsIndexOf_ne_neg_one_mem (l : List String) (x : String)
    (h : jsIndexOf l x ≠ -1) : x ∈ l := by
  by_contra hc
  exact h (jsIndexOf_eq_neg_one l x hc)

theorem permInv_of_eq (s s' : Storage) (h1 : ordGet s' = ordGet s)
    (h2 : s'.files = s.files) (h : permInv s) : permInv s' := by
  obtain ⟨names, hord, hperm⟩ := permInv_elim s h
  exact permInv_intro s' names (h1.trans hord) (by rw [filesKeys, h2]; exact hperm)

/-- `removeFile` on a well-formed state succeeds and preserves
well-formedness. -/
theorem removeFile_wf (s : Storage) (f : Option String)
    (hst : StInv s) (hk : keyedInv s) :
    ∃ s' b e, removeFile s f = some (s', b, e) ∧ StInv s' ∧ keyedInv s' := by
  obtain ⟨names, hord, hperm⟩ := permInv_elim s hst.2
  cases f with
  | none => exact ⟨s, false, [], rfl, hst, hk⟩
  | some f =>
    by_cases hf : f = ""
    · exact ⟨s, false, [], by simp [removeFile, hf], hst, hk⟩
    · cases hfget : fget s.files f with
      | none => exact ⟨s, false, [], by simp [removeFile, hf, hfget], hst, hk⟩
      | some r0 =>
        have rname : r0.name = f := hk (f, r0) (fget_mem s.files f r0 hfget)
        have hfnames : f ∈ names :=
          hperm.mem_iff.mpr (fget_some_key_mem s.files f r0 hfget)
        refine ⟨setOrd { s with files := fdel s.files r0.name }
            (jsSpliceRemove1 names (jsIndexOf names r0.name)), true,
            [Eff.unlink r0.index r0.name, Eff.wProps],
            by simp [removeFile, hf, hfget, hord], ⟨?_, ?_⟩, ?_⟩
        · show ((fdel s.files r0.name).map (·.1)).Nodup
          rw [keys_fdel]
          exact hst.1.filter _
        · apply permInv_intro _ _ (ordGet_setOrd _ _)
          show (jsSpliceRemove1 names (jsIndexOf names r0.name)).Perm
            ((fdel s.files r0.name).map (·.1))
          rw [rname, jsSpliceRemove1_indexOf names f hfnames, keys_fdel,
            nodup_filter_ne_eq_erase (s.files.map (·.1)) f
              (show (s.files.map (·.1)).Nodup from hst.1)]
          exact hperm.erase f
        · exact keyed_fdel _ _ hk

/-- `renameFile` on a well-formed state succeeds and preserves
well-formedness. -/
theorem renameFile_wf (s : Storage) (a : String) (b : Option String)
    (hst : StInv s) (hk : keyedInv s) :
    ∃ s' r e, renameFile s a b = some (s', r, e) ∧ StInv s' ∧ keyedInv s' := by
  obtain ⟨names, hord, hperm⟩ := permInv_elim s hst.2
  cases b with
  | none => exact ⟨s, false, [], rfl, hst, hk⟩
  | some nf =>
    by_cases hnf : nf = ""
    · exact ⟨s, false, [], by simp [renameFile, hnf], hst, hk⟩
    · cases hfget : fget s.files a with
      | none => exact ⟨s, false, [], by simp [renameFile, hnf, hfget], hst, hk⟩
      | some r0 =>
        cases hnew : fget s.files nf with
        | some r1 => exact ⟨s, false, [], by simp [renameFile, hnf, hfget, hnew], hst, hk⟩
        | none =>
          have rname : r0.name = a := hk (a, r0) (fget_mem s.files a r0 hfget)
          have hanames : a ∈ names :=
            hperm.mem_iff.mpr (fget_some_key_mem s.files a r0 hfget)
          have hnfkeys : nf ∉ s.files.map (·.1) := (fget_eq_none_iff s.files nf).mp hnew
          have hnfdel : nf ∉ (fdel s.files r0.name).map (·.1) := by
            rw [keys_fdel]
            exact fun hm => hnfkeys (List.mem_of_mem_filter hm)
          refine ⟨setOrd { s with
              files := fset (fdel s.files r0.name) nf ({ r0 with name := nf }) }
              (jsSetAt names (jsIndexOf names r0.name) nf), true,
              [Eff.renameFs r0.index r0.name nf, Eff.wProps],
              by simp [renameFile, hnf, hfget, hnew, hord], ⟨?_, ?_⟩, ?_⟩
          · show ((fset (fdel s.files r0.name) nf ({ r0 with name := nf })).map (·.1)).Nodup
            rw [keys_fset, if_neg hnfdel, keys_fdel, List.nodup_append]
            refine ⟨hst.1.filter _, List.nodup_singleton nf, ?_⟩
            intro z hz hz2
            rw [keys_fdel] at hnfdel
            rcases List.mem_singleton.mp hz2 with hznf
            exact hnfdel (hznf ▸ hz)
          · apply permInv_intro _ _ (ordGet_setOrd _ _)
            show (jsSetAt names (jsIndexOf names r0.name) nf).Perm
              ((fset (fdel s.files r0.name) nf ({ r0 with name := nf })).map (·.1))
            rw [keys_fset, if_neg hnfdel, keys_fdel, rname]
            refine (jsSetAt_indexOf_perm names a nf hanames).trans ?_
            refine List.Perm.trans ?_ (List.perm_append_singleton nf _).symm
            apply List.Perm.cons
            rw [nodup_filter_ne_eq_erase (s.files.map (·.1)) a
              (show (s.files.map (·.1)).Nodup from hst.1)]
            exact hperm.erase a
          · show ∀ p ∈ fset (fdel s.files r0.name) nf ({ r0 with name := nf }), p.2.name = p.1
            exact keyed_fset _ _ _ (keyed_fdel _ _ hk) rfl

/-- `moveTo` on a well-formed state succeeds and preserves
well-formedness. -/
theorem moveTo_wf (s : Storage) (x y : String)
    (hst : StInv s) (hk : keyedInv s) :
    ∃ s' b e, moveTo s x y = some (s', b, e) ∧ StInv s' ∧ keyedInv s' := by
  obtain ⟨names, hord, hperm⟩ := permInv_elim s hst.2
  by_cases hfi : jsIndexOf names x = -1
  · exact ⟨s, false, [], by simp [moveTo, hord, hfi], hst, hk⟩
  · by_cases hti : jsIndexOf names y = -1
    · exact ⟨s, false, [], by simp [moveTo, hord, hfi, hti], hst, hk⟩
    · have hx : x ∈ names := jsIndexOf_ne_neg_one_mem names x hfi
      refine ⟨setOrd s (jsSpliceInsert (jsSpliceRemove1 names (jsIndexOf names x))
          (jsIndexOf names y) x), true, [Eff.wProps],
          by simp [moveTo, hord, hfi, hti], ⟨?_, ?_⟩, ?_⟩
      · show ((setOrd _ _).files.map (·.1)).Nodup
        rw [setOrd_files]
        exact hst.1
      · apply permInv_intro _ _ (ordGet_setOrd _ _)
        show (jsSpliceInsert (jsSpliceRemove1 names (jsIndexOf names x))
          (jsIndexOf names y) x).Perm ((setOrd _ _).files.map (·.1))
        rw [setOrd_files, jsSpliceRemove1_indexOf names x hx]
        refine (jsSpliceInsert_perm _ _ _).trans ?_
        exact (List.perm_cons_erase hx).symm.trans hperm
      · show ∀ p ∈ (setOrd _ _).files, p.2.name = p.1
        rw [setOrd_files]
        exact hk

theorem objGet_foldl_objSet (kvs : List (String × JVal)) (ps : List (String × JVal))
    (hne : ∀ kv ∈ kvs, kv.1 ≠ "filesOrder") :
    objGet (kvs.foldl (fun a kv => objSet a kv.1 kv.2) ps) "filesOrder"
      = objGet ps "filesOrder" := by
  induction kvs generalizing ps with
  | nil => rfl
  | cons kv t ih =>
    rw [List.foldl_cons, ih _ (fun q hq => hne q (List.mem_cons_of_mem kv hq))]
    exact objGet_objSet_ne _ _ _ _
      (Ne.symm (hne kv (List.mem_cons_self kv t)))

/-- Mutating calls that do not themselves overwrite the reserved
`filesOrder` property slot. -/
def opOkC2 : Op → Bool
  | Op.setProp k _ => !(k == "filesOrder")
  | Op.setProps (some kvs) => kvs.all (fun kv => !(kv.1 == "filesOrder"))
  | _ => true

/-- C2 (amended): on a well-formed state — unique table keys, each record
named by its own key, and `filesOrder` a permutation of the keys — every
interface operation succeeds and preserves well-formedness, provided a
property write does not overwrite the reserved `filesOrder` slot itself. -/
theorem c2_ops_preserve_permutation (s : Storage) (op : Op)
    (hst : StInv s) (hk : keyedInv s) (hop : opOkC2 op = true) :
    ∃ s', applyOp s op = some s' ∧ StInv s' ∧ keyedInv s' := by
  cases op with
  | write f d =>
    obtain ⟨s', ro, e, h1, h2, h3⟩ := writeFile_wf s f d hst hk
    exact ⟨s', by simp [applyOp, h1], h2, h3⟩
  | update f d =>
    cases hf : fget s.files f with
    | none => exact ⟨s, by simp [applyOp, updateFile, hf], hst, hk⟩
    | some r =>
      obtain ⟨s', ro, e, h1, h2, h3⟩ := writeFile_wf s (some f) d hst hk
      exact ⟨s', by simp [applyOp, updateFile, hf, h1], h2, h3⟩
  | remove f =>
    obtain ⟨s', b, e, h1, h2, h3⟩ := removeFile_wf s f hst hk
    exact ⟨s', by simp [applyOp, h1], h2, h3⟩
  | rename a b =>
    obtain ⟨s', r, e, h1, h2, h3⟩ := renameFile_wf s a b hst hk
    exact ⟨s', by simp [applyOp, h1], h2, h3⟩
  | move x y =>
    obtain ⟨s', b, e, h1, h2, h3⟩ := moveTo_wf s x y hst hk
    exact ⟨s', by simp [applyOp, h1], h2, h3⟩
  | setProp k v =>
    have hkne : k ≠ "filesOrder" := by simpa [opOkC2] using hop
    refine ⟨(setProperty s k v).1, rfl, ⟨hst.1, ?_⟩, hk⟩
    exact permInv_of_eq s _
      (ordGet_congr s _ (objGet_objSet_ne _ _ _ _ (Ne.symm hkne))) rfl hst.2
  | setProps kvs =>
    cases kvs with
    | none => exact ⟨s, rfl, hst, hk⟩
    | some l =>
      have hne : ∀ kv ∈ l, kv.1 ≠ "filesOrder" := by
        have h2 : ∀ (a : String) (b : JVal), (a, b) ∈ l → ¬ a = "filesOrder" := by
          simpa [opOkC2, List.all_eq_true] using hop
        intro kv hkv
        exact h2 kv.1 kv.2 hkv
      refine ⟨(setProperties s (some l)).1, rfl, ⟨hst.1, ?_⟩, hk⟩
      exact permInv_of_eq s _
        (ordGet_congr s _ (objGet_foldl_objSet l s.props hne)) rfl hst.2
  | removeProp k =>
    by_cases hcond : (hasProperty s k && !(k == "filesOrder")) = true
    · have hkne : k ≠ "filesOrder" := by
        intro he
        rw [he] at hcond
        simp at hcond
      have hre : (removeProperty s k).1 = { s with props := objDel s.props k } := by
        simp [removeProperty, hcond]
      refine ⟨_, rfl, ?_, ?_⟩
      · show StInv (removeProperty s k).1
        rw [hre]
        exact ⟨hst.1, permInv_of_eq s _
          (ordGet_congr s _ (objGet_objDel_ne _ _ _ (Ne.symm hkne))) rfl hst.2⟩
      · show keyedInv (removeProperty s k).1
        rw [hre]
        exact hk
    · have hb : (hasProperty s k && !(k == "filesOrder")) = false := by
        revert hcond
        cases hasProperty s k && !(k == "filesOrder") <;> simp
      have hre : (removeProperty s k).1 = s := by
        simp [removeProperty, hb]
      exact ⟨_, rfl, by show StInv (removeProperty s k).1; rw [hre]; exact hst,
        by show keyedInv (removeProperty s k).1; rw [hre]; exact hk⟩

/-- Witness for C2 (amended): removing `a` from the two-file store. -/
theorem c2_ops_preserve_permutation_witness :
    ∃ s', applyOp sampAB (Op.remove (some "a")) = some s' ∧ StInv s' := by
  obtain ⟨s', h1, h2, _⟩ := c2_ops_preserve_permutation sampAB (Op.remove (some "a"))
    (by decide) (by decide) (by decide)
  exact ⟨s', h1, h2⟩

/-- An empty store (the bootstrap result over an empty directory, written
out), and a state whose single record does not carry its key as its name. -/
def c2CexEmpty : Storage :=
  { maxIndex := -1, files := [], props := [("filesOrder", JVal.arr [])] }

def c2CexBad : Storage :=
  { maxIndex := 0, files := [("a", ⟨0, "b", "", none⟩)],
    props := [("filesOrder", JVal.arr [JVal.str "a"])] }

/-- C2 as stated fails on the code: (i) `setProperty('filesOrder', ['x'])`
is a property operation that leaves `filesOrder` no longer a permutation of
the (empty) key set; (ii) from a permutation-satisfying state whose record
is not named by its key, `removeFile` also breaks the permutation (it
splices by the record's `name`, not the key). -/
theorem c2_counterexample :
    (permInv c2CexEmpty ∧
      applyOp c2CexEmpty (Op.setProp "filesOrder" (JVal.arr [JVal.str "x"]))
        = some { maxIndex := -1, files := [],
                 props := [("filesOrder", JVal.arr [JVal.str "x"])] } ∧
      ¬ permInv { maxIndex := -1, files := [],
                  props := [("filesOrder", JVal.arr [JVal.str "x"])] }) ∧
    (permInv c2CexBad ∧
      applyOp c2CexBad (Op.remove (some "a"))
        = some { maxIndex := 0, files := [("a", ⟨0, "b", "", none⟩)],
                 props := [("filesOrder", JVal.arr [])] } ∧
      ¬ permInv { maxIndex := 0, files := [("a", ⟨0, "b", "", none⟩)],
                  props := [("filesOrder", JVal.arr [])] }) := by
  exact ⟨⟨by decide, rfl, by decide⟩, ⟨by decide, rfl, by decide⟩⟩

/-! ### C1 — index allocation across the lifetime -/

theorem initStorage_eq :
    initStorage
      = { maxIndex := -1, files := [], props := [("filesOrder", JVal.arr [])] } := by
  simp [initStorage, bootstrapStorage, bootstrapOrder, sortBy, maxIndexOf, setProperty,
    objSet]

theorem writeFile_maxIndex (s : Storage) (f d : Option String) (s' : Storage)
    (ro : Option FileRecord) (e : List Eff)
    (h : writeFile s f d = some (s', ro, e)) : s.maxIndex ≤ s'.maxIndex := by
  cases f with
  | none =>
    simp [writeFile, Prod.mk.injEq] at h
    rw [← h.1]
  | some f =>
    by_cases hf : f = ""
    · simp [writeFile, hf, Prod.mk.injEq] at h
      rw [← h.1]
    · cases hfget : fget s.files f with
      | some r0 =>
        simp [writeFile, hf, hfget, Prod.mk.injEq] at h
        rw [← h.1]
      | none =>
        cases hord : ordGet s with
        | none => simp [writeFile, hf, hfget, hord] at h
        | some ord =>
          simp [writeFile, hf, hfget, hord, Prod.mk.injEq] at h
          rw [← h.1, setOrd_maxIndex]
          show s.maxIndex ≤ s.maxIndex + 1
          omega

theorem writeFile_fresh_maxIndex (s : Storage) (f : String) (d : Option String)
    (s' : Storage) (ro : Option FileRecord) (e : List Eff)
    (hf : f ≠ "") (hget : fget s.files f = none)
    (h : writeFile s (some f) d = some (s', ro, e)) :
    s'.maxIndex = s.maxIndex + 1 := by
  cases hord : ordGet s with
  | none => simp [writeFile, hf, hget, hord] at h
  | some ord =>
    simp [writeFile, hf, hget, hord, Prod.mk.injEq] at h
    rw [← h.1, setOrd_maxIndex]

theorem removeFile_maxIndex (s : Storage) (f : Option String) (s' : Storage)
    (b : Bool) (e : List Eff)
    (h : removeFile s f = some (s', b, e)) : s'.maxIndex = s.maxIndex := by
  cases f with
  | none =>
    simp [removeFile, Prod.mk.injEq] at h
    rw [← h.1]
  | some f =>
    by_cases hf : f = ""
    · simp [removeFile, hf, Prod.mk.injEq] at h
      rw [← h.1]
    · cases hfget : fget s.files f with
      | none =>
        simp [removeFile, hf, hfget, Prod.mk.injEq] at h
        rw [← h.1]
      | some r0 =>
        cases hord : ordGet s with
        | none => simp [removeFile, hf, hfget, hord] at h
        | some ord =>
          simp [removeFile, hf, hfget, hord, Prod.mk.injEq] at h
          rw [← h.1, setOrd_maxIndex]

theorem renameFile_maxIndex (s : Storage) (a : String) (b : Option String)
    (s' : Storage) (r : Bool) (e : List Eff)
    (h : renameFile s a b = some (s', r, e)) : s'.maxIndex = s.maxIndex := by
  cases b with
  | none =>
    simp [renameFile, Prod.mk.injEq] at h
    rw [← h.1]
  | some nf =>
    by_cases hnf : nf = ""
    · simp [renameFile, hnf, Prod.mk.injEq] at h
      rw [← h.1]
    · cases hfget : fget s.files a with
      | none =>
        simp [renameFile, hnf, hfget, Prod.mk.injEq] at h
        rw [← h.1]
      | some r0 =>
        cases hnew : fget s.files nf with
        | some r1 =>
          simp [renameFile, hnf, hfget, hnew, Prod.mk.injEq] at h
          rw [← h.1]
        | none =>
          cases hord : ordGet s with
          | none => simp [renameFile, hnf, hfget, hnew, hord] at h
          | some ord =>
            simp [renameFile, hnf, hfget, hnew, hord, Prod.mk.injEq] at h
            rw [← h.1, setOrd_maxIndex]

theorem moveTo_maxIndex (s : Storage) (x y : String)
    (s' : Storage) (b : Bool) (e : List Eff)
    (h : moveTo s x y = some (s', b, e)) : s'.maxIndex = s.maxIndex := by
  cases hord : ordGet s with
  | none => simp [moveTo, hord] at h
  | some ord =>
    by_cases hfi : jsIndexOf ord x = -1
    · simp [moveTo, hord, hfi, Prod.mk.injEq] at h
      rw [← h.1]
    · by_cases hti : jsIndexOf ord y = -1
      · simp [moveTo, hord, hfi, hti, Prod.mk.injEq] at h
        rw [← h.1]
      · simp [moveTo, hord, hfi, hti, Prod.mk.injEq] at h
        rw [← h.1, setOrd_maxIndex]

/-- The running counter never decreases under any interface call. -/
theorem applyOp_maxIndex_mono (s : Storage) (op : Op) (s' : Storage)
    (h : applyOp s op = some s') : s.maxIndex ≤ s'.maxIndex := by
  cases op with
  | write f d =>
    cases hw : writeFile s f d with
    | none => simp [applyOp, hw] at h
    | some v =>
      obtain ⟨s1, ro, e⟩ := v
      simp only [applyOp, hw, Option.map_some', Option.some.injEq] at h
      exact h ▸ writeFile_maxIndex s f d s1 ro e hw
  | update f d =>
    cases hf : fget s.files f with
    | none =>
      simp only [applyOp, updateFile, hf, Option.map_some', Option.some.injEq] at h
      rw [← h]
    | some r =>
      cases hw : writeFile s (some f) d with
      | none => simp [applyOp, updateFile, hf, hw] at h
      | some v =>
        obtain ⟨s1, ro, e⟩ := v
        simp only [applyOp, updateFile, hf, hw, Option.map_some', Option.some.injEq] at h
        exact h ▸ writeFile_maxIndex s (some f) d s1 ro e hw
  | remove f =>
    cases hw : removeFile s f with
    | none => simp [applyOp, hw] at h
    | some v =>
      obtain ⟨s1, b, e⟩ := v
      simp only [applyOp, hw, Option.map_some', Option.some.injEq] at h
      rw [← h, removeFile_maxIndex s f s1 b e hw]
  | rename a b =>
    cases hw : renameFile s a b with
    | none => simp [applyOp, hw] at h
    | some v =>
      obtain ⟨s1, r, e⟩ := v
      simp only [applyOp, hw, Option.map_some', Option.some.injEq] at h
      rw [← h, renameFile_maxIndex s a b s1 r e hw]
  | move x y =>
    cases hw : moveTo s x y with
    | none => simp [applyOp, hw] at h
    | some v =>
      obtain ⟨s1, b, e⟩ := v
      simp only [applyOp, hw, Option.map_some', Option.some.injEq] at h
      rw [← h, moveTo_maxIndex s x y s1 b e hw]
  | setProp k v =>
    simp only [applyOp, Option.some.injEq] at h
    rw [← h]
    exact le_refl s.maxIndex
  | setProps kvs =>
    cases kvs with
    | none =>
      simp only [applyOp, setProperties, Option.some.injEq] at h
      rw [← h]
    | some l =>
      simp only [applyOp, setProperties, Option.some.injEq] at h
      rw [← h]
  | removeProp k =>
    simp only [applyOp, Option.some.injEq] at h
    rw [← h]
    by_cases hc : (hasProperty s k && !(k == "filesOrder")) = true
    · simp [removeProperty, hc]
    · have hb : (hasProperty s k && !(k == "filesOrder")) = false := by
        revert hc
        cases hasProperty s k && !(k == "filesOrder") <;> simp
      simp [removeProperty, hb]

theorem mem_opIssued (s : Storage) (op : Op) (i : Int)
    (h : i ∈ opIssued s op) : i = s.maxIndex + 1 := by
  cases op with
  | write f d =>
    cases f with
    | none => simp [opIssued] at h
    | some f =>
      by_cases hc : f ≠ "" ∧ fget s.files f = none
      · simp [opIssued, hc] at h
        exact h
      · simp [opIssued, hc] at h
  | update f d => simp [opIssued] at h
  | remove f => simp [opIssued] at h
  | rename a b => simp [opIssued] at h
  | move a b => simp [opIssued] at h
  | setProp k v => simp [opIssued] at h
  | setProps kvs => simp [opIssued] at h
  | removeProp k => simp [opIssued] at h

theorem opIssued_nonempty_maxIndex (s : Storage) (op : Op) (s1 : Storage)
    (hne : opIssued s op ≠ []) (h : applyOp s op = some s1) :
    s1.maxIndex = s.maxIndex + 1 := by
  cases op with
  | write f d =>
    cases f with
    | none => simp [opIssued] at hne
    | some f =>
      by_cases hc : f ≠ "" ∧ fget s.files f = none
      · cases hw : writeFile s (some f) d with
        | none => simp [applyOp, hw] at h
        | some v =>
          obtain ⟨s', ro, e⟩ := v
          simp only [applyOp, hw, Option.map_some', Option.some.injEq] at h
          rw [← h]
          exact writeFile_fresh_maxIndex s f d s' ro e hc.1 hc.2 hw
      · simp [opIssued, hc] at hne
  | update f d => simp [opIssued] at hne
  | remove f => simp [opIssued] at hne
  | rename a b => simp [opIssued] at hne
  | move a b => simp [opIssued] at hne
  | setProp k v => simp [opIssued] at hne
  | setProps kvs => simp [opIssued] at hne
  | removeProp k => simp [opIssued] at hne

theorem runIssued_gt (ops : List Op) (s : Storage) :
    ∀ i ∈ runIssued s ops, s.maxIndex < i := by
  induction ops generalizing s with
  | nil => intro i hi; simp [runIssued] at hi
  | cons op rest ih =>
    intro i hi
    rw [runIssued] at hi
    rcases List.mem_append.mp hi with h1 | h1
    · rw [mem_opIssued s op i h1]
      omega
    · cases happ : applyOp s op with
      | none => rw [happ] at h1; cases h1
      | some s1 =>
        rw [happ] at h1
        have h2 := ih s1 i h1
        have h3 := applyOp_maxIndex_mono s op s1 happ
        omega

theorem opIssued_shape (s : Storage) (op : Op) :
    opIssued s op = [] ∨ opIssued s op = [s.maxIndex + 1] := by
  cases op with
  | write f d =>
    cases f with
    | none => exact Or.inl rfl
    | some f =>
      by_cases hc : f ≠ "" ∧ fget s.files f = none
      · exact Or.inr (by simp [opIssued, hc])
      · exact Or.inl (by simp [opIssued, hc])
  | update f d => exact Or.inl rfl
  | remove f => exact Or.inl rfl
  | rename a b => exact Or.inl rfl
  | move a b => exact Or.inl rfl
  | setProp k v => exact Or.inl rfl
  | setProps kvs => exact Or.inl rfl
  | removeProp k => exact Or.inl rfl

theorem runIssued_pairwise (ops : List Op) (s : Storage) :
    (runIssued s ops).Pairwise (· < ·) := by
  induction ops generalizing s with
  | nil => simp [runIssued]
  | cons op rest ih =>
    rw [runIssued, List.pairwise_append]
    refine ⟨?_, ?_, ?_⟩
    · rcases opIssued_shape s op with hsh | hsh <;> simp [hsh]
    · cases happ : applyOp s op with
      | none => simp
      | some s1 => exact ih s1
    · intro a ha b hb
      have ha2 : a = s.maxIndex + 1 := mem_opIssued s op a ha
      cases happ : applyOp s op with
      | none => rw [happ] at hb; cases hb
      | some s1 =>
        rw [happ] at hb
        have hb2 := runIssued_gt rest s1 b hb
        have hnon : opIssued s op ≠ [] := fun he => by rw [he] at ha; cases ha
        have h1 := opIssued_nonempty_maxIndex s op s1 hnon happ
        omega

theorem runOps_writes_keys (ws : List (String × Option String)) (s : Storage)
    (hord : (ordGet s).isSome = true)
    (hne : ∀ w ∈ ws, (w : String × Option String).1 ≠ "")
    (hfresh : ∀ w ∈ ws, w.1 ∉ s.files.map (·.1))
    (hnd : (ws.map (·.1)).Nodup) :
    ∃ s', runOps s (ws.map (fun w => Op.write (some w.1) w.2)) = some s' ∧
      s'.files.map (·.1) = s.files.map (·.1) ++ ws.map (·.1) := by
  induction ws generalizing s with
  | nil => exact ⟨s, rfl, by simp⟩
  | cons w t ih =>
    obtain ⟨ord, hordv⟩ := Option.isSome_iff_exists.mp hord
    have hw1 : w.1 ≠ "" := hne w (List.mem_cons_self w t)
    have hw2 : w.1 ∉ s.files.map (·.1) := hfresh w (List.mem_cons_self w t)
    have hwget : fget s.files w.1 = none := (fget_eq_none_iff _ _).mpr hw2
    rw [List.map_cons] at hnd
    have hnds := List.nodup_cons.mp hnd
    set s1 : Storage := setOrd { s with maxIndex := s.maxIndex + 1, files := fset s.files w.1 ⟨s.maxIndex + 1, w.1, w.2.getD "", none⟩ } (ord ++ [w.1]) with hs1
    have happ : applyOp s (Op.write (some w.1) w.2) = some s1 := by
      simp [applyOp, writeFile, hw1, hwget, hordv, hs1]
    have hkeys1 : s1.files.map (·.1) = s.files.map (·.1) ++ [w.1] := by
      rw [hs1, setOrd_files]
      show (fset s.files w.1 _).map (·.1) = _
      rw [keys_fset, if_neg hw2]
    have hord1 : (ordGet s1).isSome = true := by
      rw [hs1, ordGet_setOrd]
      rfl
    have hfresh1 : ∀ v ∈ t, (v : String × Option String).1 ∉ s1.files.map (·.1) := by
      intro v hv
      rw [hkeys1]
      intro hmem
      rcases List.mem_append.mp hmem with hm | hm
      · exact hfresh v (List.mem_cons_of_mem w hv) hm
      · have hveq : v.1 = w.1 := List.mem_singleton.mp hm
        exact hnds.1 (hveq ▸ List.mem_map_of_mem (·.1) hv)
    obtain ⟨s', hrun, hkeys⟩ := ih s1 hord1
      (fun v hv => hne v (List.mem_cons_of_mem w hv)) hfresh1 hnds.2
    refine ⟨s', ?_, ?_⟩
    · rw [List.map_cons, runOps, happ]
      exact hrun
    · rw [hkeys, hkeys1]
      simp

/-- C1: from a fresh instance, a sequence of `writeFile` calls with distinct
truthy names makes `count()` equal the number of names; across any lifetime
of calls the allocated indexes are strictly increasing in call order (hence
unique, and later than every previously issued index, removals included);
`removeFile` never changes the counter; the counter never decreases under
any call; and a `writeFile` of an unknown name allocates exactly
`maxIndex + 1`. -/
theorem c1_index_discipline :
    (∀ ws : List (String × Option String),
      (∀ w ∈ ws, (w : String × Option String).1 ≠ "") → (ws.map (·.1)).Nodup →
      ∃ s', runOps initStorage (ws.map (fun w => Op.write (some w.1) w.2)) = some s' ∧
        s'.count = ws.length) ∧
    (∀ (s : Storage) (ops : List Op), (runIssued s ops).Pairwise (· < ·)) ∧
    (∀ (s : Storage) (f : Option String) (s' : Storage) (b : Bool) (e : List Eff),
      removeFile s f = some (s', b, e) → s'.maxIndex = s.maxIndex) ∧
    (∀ (s : Storage) (op : Op) (s' : Storage),
      applyOp s op = some s' → s.maxIndex ≤ s'.maxIndex) ∧
    (∀ (s : Storage) (f : String) (d : Option String) (s' : Storage)
      (ro : Option FileRecord) (e : List Eff), f ≠ "" → fget s.files f = none →
      writeFile s (some f) d = some (s', ro, e) →
      ro = some ⟨s.maxIndex + 1, f, d.getD "", none⟩ ∧ s'.maxIndex = s.maxIndex + 1) := by
  refine ⟨?_, fun s ops => runIssued_pairwise ops s, removeFile_maxIndex,
    applyOp_maxIndex_mono, ?_⟩
  · intro ws hne hnd
    have hord : (ordGet initStorage).isSome = true := by
      rw [initStorage_eq]
      rfl
    have hfresh : ∀ w ∈ ws, (w : String × Option String).1 ∉
        initStorage.files.map (·.1) := by
      intro w hw
      rw [initStorage_eq]
      simp
    obtain ⟨s', hrun, hkeys⟩ := runOps_writes_keys ws initStorage hord hne hfresh hnd
    refine ⟨s', hrun, ?_⟩
    have hlen : (s'.files.map (·.1)).length
        = (initStorage.files.map (·.1)).length + (ws.map (·.1)).length := by
      rw [hkeys, List.length_append]
    rw [initStorage_eq] at hlen
    simp only [List.length_map] at hlen
    simpa [Storage.count] using hlen
  · intro s f d s' ro e hf hget h
    cases hord : ordGet s with
    | none => simp [writeFile, hf, hget, hord] at h
    | some ord =>
      simp [writeFile, hf, hget, hord, Prod.mk.injEq] at h
      exact ⟨h.2.1.symm, by rw [← h.1, setOrd_maxIndex]⟩

/-- Witness for C1: two writes from a fresh instance. -/
theorem c1_index_discipline_witness :
    ∃ s', runOps initStorage
        ([("a", none), ("b", some "x")].map
          (fun w => Op.write (some w.1) w.2)) = some s' ∧
      s'.count = 2 := by
  obtain ⟨s', h1, h2⟩ := c1_index_discipline.1 [("a", none), ("b", some "x")]
    (by decide) (by decide)
  exact ⟨s', h1, h2⟩

/-! ### C3 — single-flight coalescing of the write-behind persister -/

/-- Caller-mutation events (`writeFile`/`setProperty` requests). -/
def PEv.isWrite : PEv → Bool
  | PEv.write _ => true
  | _ => false

instance (s : PersistSt) : Decidable (PInv s) := by
  unfold PInv
  infer_instance

theorem prun_cons (s : PersistSt) (e : PEv) (rest : List PEv) :
    prun s (e :: rest)
      = match pstep s e with
        | none => none
        | some s1 => prun s1 rest := rfl

theorem pstep_preserves_PInv (s s' : PersistSt) (e : PEv)
    (hinv : PInv s) (h : pstep s e = some s') : PInv s' := by
  obtain ⟨m, dk, p, w, t, infl⟩ := s
  obtain ⟨h1, h2, h3⟩ := hinv
  cases e with
  | write d =>
    cases p with
    | false =>
      simp only [pstep, request, issueWrite] at h
      simp at h
      subst h
      simp [PInv, quiescent]
    | true =>
      simp [pstep, request, issueWrite] at h
      subst h
      simpa [PInv, quiescent] using h1
  | done ok =>
    cases infl with
    | none => simp [pstep] at h
    | some dv =>
      have hp : p = true := by simpa using h1
      subst hp
      have hdm : w = false → dv = m := by
        intro hw
        simpa using h2 rfl hw
      cases w with
      | true =>
        simp [pstep, issueWrite] at h
        subst h
        simp [PInv, quiescent]
      | false =>
        cases ok with
        | true =>
          simp [pstep] at h
          subst h
          simp [PInv, quiescent]
          intro ht2
          exact hdm rfl
        | false =>
          simp [pstep] at h
          subst h
          simp [PInv, quiescent]
  | fire =>
    cases t with
    | false => simp [pstep] at h
    | true =>
      cases p with
      | false =>
        simp [pstep, request, issueWrite] at h
        subst h
        simp [PInv, quiescent]
      | true =>
        simp [pstep, request, issueWrite] at h
        subst h
        simpa [PInv, quiescent] using h1

theorem prun_preserves_PInv (evs : List PEv) (s s' : PersistSt)
    (hinv : PInv s) (h : prun s evs = some s') : PInv s' := by
  induction evs generalizing s with
  | nil =>
    simp only [prun, Option.some.injEq] at h
    rw [← h]
    exact hinv
  | cons e rest ih =>
    cases hs : pstep s e with
    | none => simp [prun_cons, hs] at h
    | some s1 =>
      simp only [prun_cons, hs] at h
      exact ih s1 (pstep_preserves_PInv s s1 e hinv hs) h

theorem pstep_mem_of_not_write (s s' : PersistSt) (e : PEv)
    (hnw : e.isWrite = false) (h : pstep s e = some s') : s'.mem = s.mem := by
  obtain ⟨m, dk, p, w, t, infl⟩ := s
  cases e with
  | write d => simp [PEv.isWrite] at hnw
  | done ok =>
    cases infl with
    | none => simp [pstep] at h
    | some dv =>
      cases w with
      | true =>
        simp [pstep, issueWrite] at h
        subst h
        rfl
      | false =>
        cases ok with
        | true =>
          simp [pstep] at h
          subst h
          rfl
        | false =>
          simp [pstep] at h
          subst h
          rfl
  | fire =>
    cases t with
    | false => simp [pstep] at h
    | true =>
      cases p with
      | false =>
        simp [pstep, request, issueWrite] at h
        subst h
        rfl
      | true =>
        simp [pstep, request, issueWrite] at h
        subst h
        rfl

theorem prun_mem_of_no_write (evs : List PEv) (s s' : PersistSt)
    (hnw : ∀ e ∈ evs, e.isWrite = false) (h : prun s evs = some s') :
    s'.mem = s.mem := by
  induction evs generalizing s with
  | nil =>
    simp only [prun, Option.some.injEq] at h
    rw [← h]
  | cons e rest ih =>
    cases hs : pstep s e with
    | none => simp [prun_cons, hs] at h
    | some s1 =>
      simp only [prun_cons, hs] at h
      rw [ih s1 (fun x hx => hnw x (List.mem_cons_of_mem e hx)) h,
        pstep_mem_of_not_write s s1 e (hnw e (List.mem_cons_self e rest)) hs]

theorem pstep_write_mem (s s' : PersistSt) (d : String)
    (h : pstep s (PEv.write d) = some s') : s'.mem = d := by
  obtain ⟨m, dk, p, w, t, infl⟩ := s
  cases p with
  | false =>
    simp [pstep, request, issueWrite] at h
    subst h
    rfl
  | true =>
    simp [pstep, request, issueWrite] at h
    subst h
    rfl

/-- C3: per persisted unit, (i) a request arriving while a write is in
flight only records `waiting` (and the new value) — it issues no second
write; (ii) from any state satisfying the protocol invariant, every run
ending quiescent leaves the disk equal to the current in-memory value;
(iii) in particular two back-to-back writes `d1`, `d2` before any
completion, followed by any write-free events, end (when quiescent) with
`d2` on disk — never `d1` (unless `d1 = d2`). -/
theorem c3_single_flight_coalescing :
    (∀ (s : PersistSt) (d : String), s.pending = true →
      pstep s (PEv.write d) = some { s with mem := d, waiting := true }) ∧
    (∀ (evs : List PEv) (s s' : PersistSt), PInv s → prun s evs = some s' →
      quiescent s' = true → s'.disk = s'.mem) ∧
    (∀ (evs : List PEv) (s s' : PersistSt) (d1 d2 : String), PInv s →
      (∀ e ∈ evs, e.isWrite = false) →
      prun s (PEv.write d1 :: PEv.write d2 :: evs) = some s' →
      quiescent s' = true → s'.disk = d2) := by
  refine ⟨?_, ?_, ?_⟩
  · intro s d hp
    simp [pstep, request, hp]
  · intro evs s s' hinv hrun hq
    exact (prun_preserves_PInv evs s s' hinv hrun).2.2 hq
  · intro evs s s' d1 d2 hinv hnw hrun hq
    cases hs1 : pstep s (PEv.write d1) with
    | none => simp [prun_cons, hs1] at hrun
    | some s1 =>
      simp only [prun_cons, hs1] at hrun
      cases hs2 : pstep s1 (PEv.write d2) with
      | none => simp [prun_cons, hs2] at hrun
      | some s2 =>
        simp only [prun_cons, hs2] at hrun
        have hinv2 : PInv s2 :=
          pstep_preserves_PInv s1 s2 _ (pstep_preserves_PInv s s1 _ hinv hs1) hs2
        have hd : s'.disk = s'.mem :=
          (prun_preserves_PInv evs s2 s' hinv2 hrun).2.2 hq
        have hm : s'.mem = s2.mem := prun_mem_of_no_write evs s2 s' hnw hrun
        rw [hd, hm, pstep_write_mem s1 s2 d2 hs2]

/-- Witness for C3: a coalesced pair of writes followed by two completions
persists the second value. -/
theorem c3_single_flight_coalescing_witness :
    pstep ⟨"m", "o", true, false, false, some "o"⟩ (PEv.write "n")
      = some ⟨"n", "o", true, true, false, some "o"⟩ ∧
    (⟨"d2", "d2", false, false, false, none⟩ : PersistSt).disk = "d2" := by
  constructor
  · exact c3_single_flight_coalescing.1 ⟨"m", "o", true, false, false, some "o"⟩ "n" rfl
  · exact c3_single_flight_coalescing.2.2 [PEv.done true, PEv.done true]
      ⟨"v", "v", false, false, false, none⟩ ⟨"d2", "d2", false, false, false, none⟩
      "d1" "d2" (by decide) (by decide) rfl (by decide)

/-! ### C5 — the bootstrap ordering computation -/

theorem insertSorted_perm (le : String → String → Bool) (x : String) (l : List String) :
    (insertSorted le x l).Perm (x :: l) := by
  induction l with
  | nil => exact List.Perm.refl [x]
  | cons y t ih =>
    by_cases h : le x y = true
    · simp [insertSorted, h]
    · simp only [insertSorted, if_neg h]
      exact (ih.cons y).trans (List.Perm.swap x y t)

theorem sortBy_perm (le : String → String → Bool) (l : List String) :
    (sortBy le l).Perm l := by
  induction l with
  | nil => exact List.Perm.refl []
  | cons x t ih =>
    show (insertSorted le x (sortBy le t)).Perm (x :: t)
    exact (insertSorted_perm le x (sortBy le t)).trans (ih.cons x)

theorem pairwise_insertSorted (le : String → String → Bool)
    (htot : ∀ a b : String, (le a b || le b a) = true) (x : String) (l : List String) :
    (∀ a ∈ x :: l, ∀ b ∈ x :: l, ∀ c ∈ x :: l,
      le a b = true → le b c = true → le a c = true) →
    l.Pairwise (fun a b => le a b = true) →
    (insertSorted le x l).Pairwise (fun a b => le a b = true) := by
  induction l with
  | nil =>
    intro _ _
    simp [insertSorted]
  | cons y t ih =>
    intro htrans hl
    obtain ⟨hy, ht⟩ := List.pairwise_cons.mp hl
    by_cases h : le x y = true
    · simp only [insertSorted, if_pos h]
      refine List.Pairwise.cons ?_ hl
      intro z hz
      rcases List.mem_cons.mp hz with hz1 | hz2
      · exact hz1 ▸ h
      · exact htrans x (List.mem_cons_self x (y :: t))
          y (List.mem_cons_of_mem x (List.mem_cons_self y t))
          z (List.mem_cons_of_mem x (List.mem_cons_of_mem y hz2)) h (hy z hz2)
    · simp only [insertSorted, if_neg h]
      have hyx : le y x = true := by
        cases hxy : le x y with
        | true => exact absurd hxy h
        | false =>
          have h2 := htot x y
          rw [hxy] at h2
          simpa using h2
      have lift : ∀ w, w ∈ x :: t → w ∈ x :: y :: t := by
        intro w hw
        rcases List.mem_cons.mp hw with h1 | h1
        · exact h1 ▸ List.mem_cons_self x (y :: t)
        · exact List.mem_cons_of_mem x (List.mem_cons_of_mem y h1)
      refine List.Pairwise.cons ?_ ?_
      · intro z hz
        have hz2 : z ∈ x :: t := (insertSorted_perm le x t).mem_iff.mp hz
        rcases List.mem_cons.mp hz2 with hz3 | hz3
        · exact hz3 ▸ hyx
        · exact hy z hz3
      · exact ih (fun a ha b hb c hc => htrans a (lift a ha) b (lift b hb) c (lift c hc)) ht

theorem pairwise_sortBy (le : String → String → Bool)
    (htot : ∀ a b : String, (le a b || le b a) = true) (l : List String) :
    (∀ a ∈ l, ∀ b ∈ l, ∀ c ∈ l, le a b = true → le b c = true → le a c = true) →
    (sortBy le l).Pairwise (fun a b => le a b = true) := by
  induction l with
  | nil =>
    intro _
    simp [sortBy]
  | cons x t ih =>
    intro htrans
    show (insertSorted le x (sortBy le t)).Pairwise _
    have lift : ∀ w, w ∈ x :: sortBy le t → w ∈ x :: t := by
      intro w hw
      rcases List.mem_cons.mp hw with h1 | h1
      · exact h1 ▸ List.mem_cons_self x t
      · exact List.mem_cons_of_mem x ((sortBy_perm le t).mem_iff.mp h1)
    refine pairwise_insertSorted le htot x (sortBy le t)
      (fun a ha b hb c hc => htrans a (lift a ha) b (lift b hb) c (lift c hc)) ?_
    exact ih (fun a ha b hb c hc => htrans a (List.mem_cons_of_mem x ha)
      b (List.mem_cons_of_mem x hb) c (List.mem_cons_of_mem x hc))

theorem bootCmp_asymm (tab : List (String × FileRecord)) (po : Option (List JVal))
    (a b : String) (h : bootCmp tab po a b = 1) : bootCmp tab po b a = -1 := by
  cases po with
  | none =>
    simp only [bootCmp] at h ⊢
    split_ifs at h ⊢ <;> omega
  | some fo =>
    simp only [bootCmp] at h ⊢
    split_ifs at h ⊢ <;> omega

theorem bootLe_iff (tab : List (String × FileRecord)) (po : Option (List JVal))
    (a b : String) : bootLe tab po a b = true ↔ bootCmp tab po a b ≠ 1 := by
  simp [bootLe]

theorem bootLe_total (tab : List (String × FileRecord)) (po : Option (List JVal)) :
    ∀ a b : String, (bootLe tab po a b || bootLe tab po b a) = true := by
  intro a b
  by_cases h : bootCmp tab po a b = 1
  · have h2 := bootCmp_asymm tab po a b h
    have h3 : bootLe tab po b a = true := (bootLe_iff tab po b a).mpr (by omega)
    simp [h3]
  · have h3 : bootLe tab po a b = true := (bootLe_iff tab po a b).mpr h
    simp [h3]

theorem bootLe_none_iff (tab : List (String × FileRecord)) (a b : String) :
    bootLe tab none a b = true ↔ idxOfName tab a ≤ idxOfName tab b := by
  rw [bootLe_iff]
  simp only [bootCmp]
  split_ifs with hgt
  · constructor
    · intro hc
      exact absurd rfl hc
    · intro hc
      exact absurd hc (by omega)
  · constructor
    · intro _
      omega
    · intro _
      omega

theorem jsIndexOfV_cons_eq (v : JVal) (t : List JVal) (x : String) :
    jsIndexOfV (v :: t) x
      = if v.isStr x then 0
        else if jsIndexOfV t x = -1 then -1 else jsIndexOfV t x + 1 := rfl

theorem jsIndexOfV_cases (l : List JVal) (x : String) :
    jsIndexOfV l x = -1 ∨ 0 ≤ jsIndexOfV l x := by
  induction l with
  | nil => exact Or.inl rfl
  | cons v t ih =>
    rw [jsIndexOfV_cons_eq]
    by_cases h : v.isStr x = true
    · rw [if_pos h]
      right
      omega
    · rw [if_neg h]
      by_cases h2 : jsIndexOfV t x = -1
      · rw [if_pos h2]
        exact Or.inl rfl
      · rw [if_neg h2]
        right
        rcases ih with h3 | h3
        · exact absurd h3 h2
        · omega

theorem isStr_eq (v : JVal) (x : String) (h : v.isStr x = true) : v = JVal.str x := by
  cases v with
  | str s =>
    have h2 : s = x := by simpa [JVal.isStr] using h
    rw [h2]
  | null => simp [JVal.isStr] at h
  | bool b => simp [JVal.isStr] at h
  | num n => simp [JVal.isStr] at h
  | arr l => simp [JVal.isStr] at h
  | obj l => simp [JVal.isStr] at h

theorem jsIndexOfV_inj (fo : List JVal) (a b : String)
    (ha : jsIndexOfV fo a ≠ -1) (h : jsIndexOfV fo a = jsIndexOfV fo b) : a = b := by
  induction fo with
  | nil => exact absurd rfl ha
  | cons v t ih =>
    rw [jsIndexOfV_cons_eq] at h ha
    rw [jsIndexOfV_cons_eq] at h
    by_cases hva : v.isStr a = true
    · rw [if_pos hva] at h ha
      by_cases hvb : v.isStr b = true
      · have h1 := isStr_eq v a hva
        have h2 := isStr_eq v b hvb
        rw [h1] at h2
        exact JVal.str.inj h2
      · exfalso
        rw [if_neg hvb] at h
        rcases jsIndexOfV_cases t b with h2 | h2
        · rw [if_pos h2] at h
          omega
        · have h3 : jsIndexOfV t b ≠ -1 := by
            intro hc
            rw [hc] at h2
            omega
          rw [if_neg h3] at h
          omega
    · rw [if_neg hva] at h ha
      have ha2 : jsIndexOfV t a ≠ -1 := by
        intro hc
        rw [if_pos hc] at ha
        exact ha rfl
      rw [if_neg ha2] at h ha
      have ha3 : 0 ≤ jsIndexOfV t a := by
        rcases jsIndexOfV_cases t a with h2 | h2
        · exact absurd h2 ha2
        · exact h2
      by_cases hvb : v.isStr b = true
      · exfalso
        rw [if_pos hvb] at h
        omega
      · rw [if_neg hvb] at h
        rcases jsIndexOfV_cases t b with h2 | h2
        · exfalso
          rw [if_pos h2] at h
          omega
        · have hb2 : jsIndexOfV t b ≠ -1 := by
            intro hc
            rw [hc] at h2
            omega
          rw [if_neg hb2] at h
          apply ih ha2
          omega

/-- The pairwise ordering property C5 ascribes to the computed order: for
names both present in the persisted array their positions there decide, and
for every other pair the physical index decides. -/
def c5Rel (tab : List (String × FileRecord)) (po : List JVal) (a b : String) : Prop :=
  (jsIndexOfV po a ≠ -1 → jsIndexOfV po b ≠ -1 →
    jsIndexOfV po a < jsIndexOfV po b) ∧
  (¬(jsIndexOfV po a ≠ -1 ∧ jsIndexOfV po b ≠ -1) →
    idxOfName tab a ≤ idxOfName tab b)

instance (tab : List (String × FileRecord)) (po : List JVal) (a b : String) :
    Decidable (c5Rel tab po a b) := by
  unfold c5Rel
  infer_instance

/-- C5 (amended): the bootstrap order is always a permutation of the
recovered table's keys and is stored back into the property map under
`filesOrder`; when no persisted array exists the keys are sorted by index
ascending; and when a persisted array exists the claimed pairwise property
holds provided the priority comparator is transitive over the keys (a
consistent comparator) and the keys are distinct. -/
theorem c5_bootstrap_order (tab : List (String × FileRecord))
    (props0 : List (String × JVal)) :
    (bootstrapOrder tab props0).Perm (tab.map (·.1)) ∧
    objGet (bootstrapStorage tab props0).props "filesOrder"
      = some (JVal.arr ((bootstrapOrder tab props0).map JVal.str)) ∧
    (persistedOrder props0 = none →
      (bootstrapOrder tab props0).Pairwise
        (fun a b => idxOfName tab a ≤ idxOfName tab b)) ∧
    (∀ po, persistedOrder props0 = some po → (tab.map (·.1)).Nodup →
      (∀ a ∈ tab.map (·.1), ∀ b ∈ tab.map (·.1), ∀ c ∈ tab.map (·.1),
        bootLe tab (some po) a b = true → bootLe tab (some po) b c = true →
        bootLe tab (some po) a c = true) →
      (bootstrapOrder tab props0).Pairwise (c5Rel tab po)) := by
  refine ⟨?_, ?_, ?_, ?_⟩
  · unfold bootstrapOrder
    exact sortBy_perm _ _
  · show objGet (objSet props0 "filesOrder"
      (JVal.arr ((bootstrapOrder tab props0).map JVal.str))) "filesOrder" = _
    exact objGet_objSet_self _ _ _
  · intro hpo
    unfold bootstrapOrder
    rw [hpo]
    have htr : ∀ a ∈ tab.map (·.1), ∀ b ∈ tab.map (·.1), ∀ c ∈ tab.map (·.1),
        bootLe tab none a b = true → bootLe tab none b c = true →
        bootLe tab none a c = true := by
      intro a _ b _ c _ h1 h2
      rw [bootLe_none_iff] at h1 h2 ⊢
      omega
    exact (pairwise_sortBy _ (bootLe_total tab none) _ htr).imp
      (fun h => (bootLe_none_iff tab _ _).mp h)
  · intro po hpo hnd htrans
    unfold bootstrapOrder
    rw [hpo]
    have himp : ∀ a b : String, a ≠ b → bootLe tab (some po) a b = true →
        c5Rel tab po a b := by
      intro a b hne hle
      have hcmp : bootCmp tab (some po) a b ≠ 1 := (bootLe_iff _ _ _ _).mp hle
      constructor
      · intro hia hib
        simp only [bootCmp, if_pos hia, if_pos hib] at hcmp
        by_cases hgt : jsIndexOfV po a > jsIndexOfV po b
        · rw [if_pos hgt] at hcmp
          exact absurd rfl hcmp
        · have hne2 : jsIndexOfV po a ≠ jsIndexOfV po b := by
            intro he
            exact hne (jsIndexOfV_inj po a b hia he)
          omega
      · intro hnboth
        by_cases hia : jsIndexOfV po a ≠ -1
        · have hib : ¬ jsIndexOfV po b ≠ -1 := fun hb => hnboth ⟨hia, hb⟩
          simp only [bootCmp, if_pos hia, if_neg hib] at hcmp
          by_cases hgt : idxOfName tab a > idxOfName tab b
          · rw [if_pos hgt] at hcmp
            exact absurd rfl hcmp
          · omega
        · simp only [bootCmp, if_neg hia] at hcmp
          by_cases hgt : idxOfName tab a > idxOfName tab b
          · rw [if_pos hgt] at hcmp
            exact absurd rfl hcmp
          · omega
    have hsorted := pairwise_sortBy (bootLe tab (some po))
      (bootLe_total tab (some po)) (tab.map (·.1)) htrans
    have hnd2 : (sortBy (bootLe tab (some po)) (tab.map (·.1))).Nodup :=
      ((sortBy_perm _ _).nodup_iff).mpr hnd
    exact (hsorted.and hnd2).imp (fun h => himp _ _ h.2 h.1)

/-- A recovered table and persisted order whose combined comparator is
cyclic: the persisted array says `a` before `b`, while the physical indexes
say `b` before `c` before `a`. -/
def c5CexTab : List (String × FileRecord) :=
  [("a", ⟨3, "a", "", none⟩), ("b", ⟨1, "b", "", none⟩), ("c", ⟨2, "c", "", none⟩)]

def c5CexPo : List JVal := [JVal.str "a", JVal.str "b"]

/-- C5 as stated fails on the code: with the cyclic input above, the
computed order violates the claimed pairwise property.  Moreover no
ordering of the keys at all satisfies it (every duplicate-free three-element
arrangement of the keys fails), so the failure does not depend on which
sort `Array.prototype.sort` implements. -/
theorem c5_counterexample :
    persistedOrder [("filesOrder", JVal.arr c5CexPo)] = some c5CexPo ∧
    ¬ (bootstrapOrder c5CexTab [("filesOrder", JVal.arr c5CexPo)]).Pairwise
        (c5Rel c5CexTab c5CexPo) ∧
    ∀ x ∈ c5CexTab.map (·.1), ∀ y ∈ c5CexTab.map (·.1), ∀ z ∈ c5CexTab.map (·.1),
      ¬ ([x, y, z].Nodup ∧ [x, y, z].Pairwise (c5Rel c5CexTab c5CexPo)) := by
  exact ⟨rfl, by decide, by decide⟩

def c5WTab : List (String × FileRecord) :=
  [("a", ⟨0, "a", "", none⟩), ("b", ⟨1, "b", "", none⟩)]

def c5WProps : List (String × JVal) :=
  [("filesOrder", JVal.arr [JVal.str "b", JVal.str "a"])]

/-- Witness for C5 (amended): a consistent persisted order `[b, a]` over two
keys is honored. -/
theorem c5_bootstrap_order_witness :
    (bootstrapOrder c5WTab c5WProps).Pairwise
      (c5Rel c5WTab [JVal.str "b", JVal.str "a"]) ∧
    bootstrapOrder c5WTab c5WProps = ["b", "a"] := by
  constructor
  · exact (c5_bootstrap_order c5WTab c5WProps).2.2.2 [JVal.str "b", JVal.str "a"]
      rfl (by decide) (by decide)
  · decide
